import Mathlib

/-!
# fm24-real: installation discovery and backup-then-delete file operations

A shallow embedding of `fm24.go` (and the parts of `config.go` it uses).

* Go strings are Lean strings; `strconv`, `sort`, `strings` and `path/filepath`
  are modelled by the small functions of the first sections (slash separated
  paths).
* The filesystem is a value of type `FS`: a finite list of entries keyed by
  their absolute path, a path being the list of its components.  The `os`
  calls of the program are functions on that value; the calls that change
  the filesystem return the new one.
* A method with receiver `t *FM24Tool` that assigns a field returns the
  updated tool next to its Go result.
* Console output (`color.*`, `fmt.Print*`) has no effect on any value the
  program computes and is left out.
* The filesystem has no symbolic links and changes only through the calls of
  the program; `int` is 64 bits wide.

The definitions come first, section by section in the order of the source;
the statements about them follow.
-/

namespace FM24

/-! ## strconv -/

/-- Decimal value of a run of ASCII digits, `none` when a byte is not a digit. -/
def parseDigits : List Char → Nat → Option Nat
  | [], acc => some acc
  | c :: cs, acc =>
    if '0' ≤ c ∧ c ≤ '9' then parseDigits cs (acc * 10 + (c.toNat - 48)) else none

/-- Width of the Go type `int` on the 64-bit targets of the tool. -/
def intSize : Nat := 64

/-- Unsigned magnitude of `strconv.Atoi`: a non-empty run of digits. -/
def parseMagnitude (ds : List Char) : Option Nat :=
  if ds.isEmpty then none else parseDigits ds 0

/-- Model of `strconv.Atoi`: an optional sign, then one or more decimal digits,
and a value that fits `int`; `none` stands for a non-nil error. -/
def Atoi (s : String) : Option Int :=
  match s.toList with
  | [] => none
  | '-' :: ds =>
    match parseMagnitude ds with
    | some n => if n ≤ 2 ^ (intSize - 1) then some (-(n : Int)) else none
    | none => none
  | '+' :: ds =>
    match parseMagnitude ds with
    | some n => if n < 2 ^ (intSize - 1) then some (n : Int) else none
    | none => none
  | ds =>
    match parseMagnitude ds with
    | some n => if n < 2 ^ (intSize - 1) then some (n : Int) else none
    | none => none

/-- Model of `strconv.Itoa`: the shortest decimal rendering. -/
def Itoa (v : Int) : String :=
  if v < 0 then "-" ++ Nat.repr v.natAbs else Nat.repr v.natAbs

/-! ## sort -/

/-- Model of `sort.Ints`: the ascending rearrangement of the slice. -/
def sortInts (xs : List Int) : List Int :=
  xs.insertionSort (fun a b => a ≤ b)

/-! ## path/filepath -/

/-- Model of `strings.Split(s, sep)` for a one-byte separator. -/
def splitOnChar (sep : Char) : List Char → List (List Char)
  | [] => [[]]
  | c :: cs =>
    if c = sep then [] :: splitOnChar sep cs
    else
      match splitOnChar sep cs with
      | [] => [[c]]
      | w :: ws => (c :: w) :: ws

/-- Elements of a slash separated path, empty ones included. -/
def splitComps (p : String) : List String :=
  (splitOnChar '/' p.toList).map String.mk

/-- One step of the lexical processing of `filepath.Clean`, the elements kept
so far being held last first: empty and `.` elements are dropped, `..` removes
the element before it, is dropped at the root and is kept otherwise. -/
def cleanStep (rooted : Bool) (acc : List String) (c : String) : List String :=
  if c = "" ∨ c = "." then acc
  else if c = ".." then
    match acc with
    | [] => if rooted then [] else [".."]
    | top :: rest => if top = ".." then ".." :: top :: rest else rest
  else c :: acc

/-- Elements of a path joined by slashes. -/
def joinSlash : List String → String
  | [] => ""
  | [c] => c
  | c :: cs => c ++ "/" ++ joinSlash cs

/-- Model of `filepath.Clean`. -/
def Clean (path : String) : String :=
  if path = "" then "."
  else
    let rooted := path.toList.head? == some '/'
    let comps := ((splitComps path).foldl (cleanStep rooted) []).reverse
    if rooted then "/" ++ joinSlash comps
    else if comps.isEmpty then "." else joinSlash comps

/-- Model of `filepath.Join`: leading empty elements are ignored, the rest is
joined by slashes and cleaned; the result is empty when every element is. -/
def filepathJoin (elem : List String) : String :=
  match elem.dropWhile (fun e => e = "") with
  | [] => ""
  | es => Clean (joinSlash es)

/-- A location in the filesystem: the components from the root. -/
abbrev Path := List String

/-- Extends a location by path elements, with the lexical processing of
`filepath.Clean`. -/
def joinComps (a : Path) (cs : List String) : Path :=
  (cs.foldl (cleanStep true) a.reverse).reverse

/-- The location a path string names (relative strings are taken from the root). -/
def pathOf (p : String) : Path :=
  joinComps [] (splitComps p)

/-- Model of `filepath.Join(a, b)` where `a` is already a location. -/
def joinPath (a : Path) (b : String) : Path :=
  joinComps a (splitComps b)

/-- Number of leading components two locations share. -/
def commonLen : Path → Path → Nat
  | a :: as, b :: bs => if a = b then commonLen as bs + 1 else 0
  | _, _ => 0

/-- Model of `filepath.Rel` on two locations: one `..` per remaining component
of the base, then the remaining components of the target; `.` when equal. -/
def filepathRel (base targ : Path) : List String :=
  let k := commonLen base targ
  let r := List.replicate (base.length - k) ".." ++ targ.drop k
  if r.isEmpty then ["."] else r

/-- Model of `filepath.Dir` on a location. -/
def filepathDir (p : Path) : Path := p.dropLast

/-! ## strings -/

/-- Model of `strings.Contains`. -/
def containsSub (sub : List Char) : List Char → Bool
  | [] => sub.isEmpty
  | c :: cs => sub.isPrefixOf (c :: cs) || containsSub sub cs

/-- White space in the sense of `unicode.IsSpace`. -/
def isSpace (c : Char) : Bool :=
  c = '\t' ∨ c = '\n' ∨ c.toNat = 11 ∨ c.toNat = 12 ∨ c = '\r' ∨ c = ' '
    ∨ c.toNat = 0x85 ∨ c.toNat = 0xA0 ∨ c.toNat = 0x1680
    ∨ (0x2000 ≤ c.toNat ∧ c.toNat ≤ 0x200a)
    ∨ c.toNat = 0x2028 ∨ c.toNat = 0x2029 ∨ c.toNat = 0x202f
    ∨ c.toNat = 0x205f ∨ c.toNat = 0x3000

/-- Removes the leading and trailing characters that satisfy `f`. -/
def trimBoth (f : Char → Bool) (cs : List Char) : List Char :=
  ((cs.dropWhile f).reverse.dropWhile f).reverse

/-- Model of `strings.TrimSpace`. -/
def TrimSpace (cs : List Char) : List Char := trimBoth isSpace cs

/-- Model of `strings.Trim(s, " \t\"")`. -/
def trimCutset (cs : List Char) : List Char :=
  trimBoth (fun c => c = ' ' ∨ c = '\t' ∨ c = '"') cs

/-- Model of `strings.ReplaceAll(s, "\\\\", "\\")`: every pair of backslashes,
taken left to right, becomes one. -/
def replaceDoubleBackslash : List Char → List Char
  | '\\' :: '\\' :: rest => '\\' :: replaceDoubleBackslash rest
  | c :: rest => c :: replaceDoubleBackslash rest
  | [] => []

/-! ## The filesystem -/

/-- Errors of the program and of the `os` calls it makes. -/
inductive Err where
  | notExist
  | notDir
  | isDir
  | denied
  | notEmpty
  | tooDeep
  | noVersionFolder
  | pathNotFound (path : String)
  | customVersion (inner : Err)
  | scanFailed
  | installationNotFound
  | noHome
deriving DecidableEq, Repr

/-- One file or directory. `readable = false` denies reading it (its contents
or its listing); `locked = true` makes every attempt to remove it fail. -/
structure Entry where
  path : Path
  isDir : Bool
  data : String
  mode : Nat
  readable : Bool
  locked : Bool
deriving DecidableEq, Repr

/-- The filesystem: its entries, a directory listing reporting the entries of
a directory in the order in which they stand here. -/
abbrev FS := List Entry

/-- What `os.ReadDir` reports for one entry of a directory. -/
structure DirEntry where
  name : String
  isDir : Bool
  mode : Nat
deriving DecidableEq, Repr

/-- Model of `os.Stat`: `none` stands for a non-nil error. -/
def stat (s : FS) (p : Path) : Option Entry :=
  s.find? (fun e => e.path = p)

/-- Some regular file stands at a proper ancestor of `p`: a lookup of `p` then
fails with ENOTDIR, not with ENOENT. -/
def fileAbove (s : FS) (p : Path) : Bool :=
  s.any (fun e => !e.isDir && e.path.isPrefixOf p && !(e.path == p))

/-- The error of a lookup (`os.Stat`, `os.ReadDir`, `os.ReadFile`, ...) of a
location at which `stat` finds nothing. -/
def lookupError (s : FS) (p : Path) : Err :=
  if fileAbove s p then .notDir else .notExist

/-- The error that `os.Stat` returns, `none` standing for nil. -/
def statError (s : FS) (p : Path) : Option Err :=
  match stat s p with
  | some _ => none
  | none => some (lookupError s p)

/-- Go `os.IsNotExist`. -/
def IsNotExist : Option Err → Bool
  | some .notExist => true
  | _ => false

/-- The entry of a directory listing for `e`, when `e` lies directly in `p`. -/
def childOf (p : Path) (e : Entry) : Option DirEntry :=
  match e.path.getLast? with
  | some n => if e.path.dropLast = p then some ⟨n, e.isDir, e.mode⟩ else none
  | none => none

/-- Model of `os.ReadDir`. -/
def readDir (s : FS) (p : Path) : Except Err (List DirEntry) :=
  match stat s p with
  | none => .error (lookupError s p)
  | some d =>
    if !d.isDir then .error .notDir
    else if !d.readable then .error .denied
    else .ok (s.filterMap (childOf p))

/-- Model of `os.ReadFile`. -/
def readFile (s : FS) (p : Path) : Except Err String :=
  match stat s p with
  | none => .error (lookupError s p)
  | some f =>
    if f.isDir then .error .isDir
    else if !f.readable then .error .denied
    else .ok f.data

/-- A fresh directory. -/
def newDir (p : Path) (mode : Nat) : Entry := ⟨p, true, "", mode, true, false⟩

/-- Model of `os.MkdirAll`, the location being given last component first:
an existing directory is success, an existing file an error, and a missing
location is created after its parent. -/
def mkdirAllRev (mode : Nat) (s : FS) : List String → FS × Option Err
  | [] =>
    match stat s [] with
    | some e => (s, if e.isDir then none else some .notDir)
    | none => (s ++ [newDir [] mode], none)
  | n :: up =>
    match stat s (n :: up).reverse with
    | some e => (s, if e.isDir then none else some .notDir)
    | none =>
      match mkdirAllRev mode s up with
      | (s1, none) => (s1 ++ [newDir (n :: up).reverse mode], none)
      | (s1, some err) => (s1, some err)

/-- Model of `os.MkdirAll`. -/
def mkdirAll (s : FS) (p : Path) (mode : Nat) : FS × Option Err :=
  mkdirAllRev mode s p.reverse

/-- Model of `os.WriteFile`: the parent must be a directory and the location
must not be one; an existing file keeps its mode and gets the new contents. -/
def writeFile (s : FS) (p : Path) (data : String) (mode : Nat) : FS × Option Err :=
  match p.getLast? with
  | none => (s, some .isDir)
  | some _ =>
    match stat s p.dropLast with
    | none => (s, some (lookupError s p.dropLast))
    | some d =>
      if !d.isDir then (s, some .notDir)
      else
        match stat s p with
        | some f =>
          if f.isDir then (s, some .isDir)
          else (s.map (fun e => if e.path = p then { e with data := data } else e), none)
        | none => (s ++ [⟨p, false, data, mode, true, false⟩], none)

/-- Some locked entry lies at `q` or below it. -/
def blocked (s : FS) (q : Path) : Bool :=
  s.any (fun e => e.locked && q.isPrefixOf e.path)

/-- Model of `os.RemoveAll`: removes the location and everything below it that
can be removed; a missing location is success; a locked entry stays, with the
directories that lead to it, and makes the call fail. -/
def removeAll (s : FS) (p : Path) : FS × Option Err :=
  (s.filter (fun e => !(p.isPrefixOf e.path) || blocked s e.path),
   if blocked s p then some .denied else none)

/-- Model of `os.Remove`: removes a file or an empty directory. -/
def remove (s : FS) (p : Path) : FS × Option Err :=
  match stat s p with
  | none => (s, some (lookupError s p))
  | some e =>
    if e.locked then (s, some .denied)
    else if s.any (fun c => (childOf p c).isSome) then (s, some .notEmpty)
    else (s.filter (fun c => !(c.path = p)), none)

/-! ## Data model -/

/-- Go `TargetFile`. -/
structure TargetFile where
  Path : String
  Description : String
  IsDirectory : Bool
  DeleteAll : Bool
deriving DecidableEq, Repr

/-- Go `InstallPath`. -/
structure InstallPath where
  Name : String
  Path : String
  Platform : String
  Description : String
deriving DecidableEq, Repr

/-- Go `BackupConfig`. -/
structure BackupConfig where
  Enabled : Bool
  Directory : String
deriving DecidableEq, Repr

/-- Go `Config`. -/
structure Config where
  InstallPaths : List InstallPath
  Backup : BackupConfig
deriving DecidableEq, Repr

/-- Go `FM24Tool`. -/
structure FM24Tool where
  DBBasePath : String
  BackupDir : String
  TargetFiles : List TargetFile
  Config : Config
deriving DecidableEq, Repr

/-- Go `NewFM24Tool`. -/
def NewFM24Tool (config : Config) : FM24Tool :=
  { DBBasePath := ""
    BackupDir := ""
    Config := config
    TargetFiles := [
      ⟨"lnc/all", "lnc/all (全ファイル)", true, true⟩,
      ⟨"lnc/greek", "lnc/greek (全ファイル)", true, true⟩,
      ⟨"edt/permanent/fake.edt", "fake.edt", false, false⟩,
      ⟨"dbc/permanent/brazil_kits.dbc", "brazil_kits.dbc", false, false⟩,
      ⟨"dbc/permanent/forbidden names.dbc", "forbidden names.dbc", false, false⟩,
      ⟨"dbc/permanent/license.dbc", "license.dbc", false, false⟩,
      ⟨"dbc/permanent/j league non player.dbc", "j league non player.dbc", false, false⟩,
      ⟨"dbc/permanent/1_japan_removed_clubs.dbc", "1_japan_removed_clubs.dbc", false, false⟩,
      ⟨"language/Licensing2.dbc", "Licensing2.dbc", false, false⟩,
      ⟨"language/Licensing2_chn.dbc", "Licensing2_chn.dbc", false, false⟩ ] }

/-- What the program reads from its process: `runtime.GOOS` and the result of
`os.UserHomeDir` (`none` for an error). -/
structure Env where
  goos : String
  home : Option String
deriving DecidableEq, Repr

/-- The string `home, _ := os.UserHomeDir()` leaves in `home`. -/
def Env.homeOrEmpty (env : Env) : String := env.home.getD ""

/-! ## Locator -/

/-- The versions collected by the loop of `detectVersionFolder`. -/
def collectVersions : List DirEntry → List Int
  | [] => []
  | entry :: rest =>
    if entry.isDir then
      match Atoi entry.name with
      | some version => version :: collectVersions rest
      | none => collectVersions rest
    else collectVersions rest

/-- Go `FM24Tool.detectVersionFolder`. -/
def detectVersionFolder (s : FS) (basePath : String) : Except Err String :=
  match readDir s (pathOf basePath) with
  | .error err => .error err
  | .ok entries =>
    let versions := collectVersions entries
    if versions.length = 0 then .error .noVersionFolder
    else
      let latestVersion := (sortInts versions).getLastD 0
      .ok (filepathJoin [basePath, Itoa latestVersion])

/-- The test `_, err := os.Stat(p); err == nil` on a path string. -/
def statOk (s : FS) (p : String) : Bool := (stat s (pathOf p)).isSome

/-- The test the scans make of one path: it exists and has a version folder. -/
def hasVersionFolder (s : FS) (p : String) : Bool :=
  statOk s p &&
    (match detectVersionFolder s p with
     | .ok _ => true
     | .error _ => false)

/-- Inner loop of `findSteamLibraryPath`, for one piece of a line between
double quotes. -/
def steamPathFromPart (s : FS) (part : List Char) : Option String :=
  if containsSub [':', '\\'] part || containsSub [':', '/'] part then
    let path := String.mk (replaceDoubleBackslash (trimCutset part))
    if statOk s path then some path else none
  else none

/-- Body of the loop of `findSteamLibraryPath` over the lines of the file. -/
def steamPathFromLine (s : FS) (line : List Char) : Option String :=
  let line := TrimSpace line
  if containsSub ['"', 'p', 'a', 't', 'h', '"'] line then
    (splitOnChar '"' line).findSome? (steamPathFromPart s)
  else none

/-- Go `FM24Tool.findSteamLibraryPath`. -/
def findSteamLibraryPath (env : Env) (s : FS) : String :=
  let osType := env.goos
  let home := env.homeOrEmpty
  if osType = "windows" then
    let steamConfig := filepathJoin [home, "AppData/Local/Steam/steamapps/libraryfolders.vdf"]
    let fromConfig :=
      match readFile s (pathOf steamConfig) with
      | .ok content => (splitOnChar '\n' content.toList).findSome? (steamPathFromLine s)
      | .error _ => none
    match fromConfig with
    | some path => path
    | none =>
      let defaultPaths := ["C:\\Program Files (x86)\\Steam", "C:\\Program Files\\Steam"]
      match defaultPaths.find? (statOk s) with
      | some p => p
      | none => ""
  else if osType = "darwin" then
    let steamPath := filepathJoin [home, "Library/Application Support/Steam"]
    if statOk s steamPath then steamPath else ""
  else ""

/-- The fixed list `scanPaths` of `scanForInstallation`. -/
def scanPaths (env : Env) : List String :=
  let home := env.homeOrEmpty
  if env.goos = "windows" then
    [ "C:\\Program Files (x86)\\Steam\\steamapps\\common\\Football Manager 2024\\data\\database\\db",
      "C:\\Program Files\\Steam\\steamapps\\common\\Football Manager 2024\\data\\database\\db",
      "C:\\Program Files\\Epic Games\\Football Manager 2024\\data\\database\\db",
      "C:\\Program Files\\Epic Games\\FootballManager2024\\data\\database\\db",
      "C:\\XboxGames\\Football Manager 2024\\Content\\data\\database\\db",
      "D:\\SteamLibrary\\steamapps\\common\\Football Manager 2024\\data\\database\\db",
      "E:\\SteamLibrary\\steamapps\\common\\Football Manager 2024\\data\\database\\db",
      "F:\\SteamLibrary\\steamapps\\common\\Football Manager 2024\\data\\database\\db" ]
  else if env.goos = "darwin" then
    [ filepathJoin [home, "Library/Application Support/Steam/steamapps/common/Football Manager 2024/data/database/db"],
      filepathJoin [home, "Library/Application Support/Sports Interactive/Football Manager 2024/data/database/db"],
      "/Users/Shared/Epic Games/FootballManager2024/data/database/db",
      filepathJoin [home, "Library/Application Support/Steam/steamapps/common/Football Manager 2024/database/data/db"] ]
  else []

/-- Go `FM24Tool.scanForInstallation`. -/
def scanForInstallation (env : Env) (s : FS) : Except Err String :=
  let osType := env.goos
  match (scanPaths env).find? (hasVersionFolder s) with
  | some scanPath => .ok scanPath
  | none =>
    let steamPath := findSteamLibraryPath env s
    if steamPath ≠ "" then
      let fmPath := filepathJoin [steamPath, "steamapps/common/Football Manager 2024/data/database/db"]
      if hasVersionFolder s fmPath then .ok fmPath
      else if osType = "darwin" then
        let fmPath2 := filepathJoin [steamPath, "steamapps/common/Football Manager 2024/database/data/db"]
        if hasVersionFolder s fmPath2 then .ok fmPath2 else .error .scanFailed
      else .error .scanFailed
    else .error .scanFailed

/-- The loop of `DetectInstallation` over `t.Config.InstallPaths`: the version
path of the first entry at which the loop returns, `none` when it runs out. -/
def detectFromConfig (s : FS) (osType : String) : List InstallPath → Option String
  | [] => none
  | installPath :: rest =>
    if installPath.Platform ≠ osType then detectFromConfig s osType rest
    else if statOk s installPath.Path then
      match detectVersionFolder s installPath.Path with
      | .error _ => detectFromConfig s osType rest
      | .ok versionPath => some versionPath
    else detectFromConfig s osType rest

/-- Go `FM24Tool.DetectInstallation`: the returned error (`none` for nil) and
the tool after the call. -/
def DetectInstallation (env : Env) (s : FS) (t : FM24Tool) (customPath : String) :
    Option Err × FM24Tool :=
  let osType := env.goos
  if customPath ≠ "" then
    if statOk s customPath then
      match detectVersionFolder s customPath with
      | .error err => (some (.customVersion err), t)
      | .ok versionPath => (none, { t with DBBasePath := versionPath })
    else (some (.pathNotFound customPath), t)
  else
    match detectFromConfig s osType t.Config.InstallPaths with
    | some versionPath => (none, { t with DBBasePath := versionPath })
    | none =>
      match scanForInstallation env s with
      | .ok foundPath =>
        match detectVersionFolder s foundPath with
        | .ok versionPath => (none, { t with DBBasePath := versionPath })
        | .error _ => (some .installationNotFound, t)
      | .error _ => (some .installationNotFound, t)

/-! ## FileOps -/

/-- The loop of `backupDirectory` over the listing of `srcDir`, `recur` being
the recursive call. -/
def backupEntries (recur : FS → Path → Path → FS × Option Err) (srcDir dstDir : Path) :
    FS → List DirEntry → FS × Option Err
  | s, [] => (s, none)
  | s, entry :: rest =>
    let srcPath := joinPath srcDir entry.name
    let dstPath := joinPath dstDir entry.name
    if entry.isDir then
      let s1 := (mkdirAll s dstPath 0o755).1
      match recur s1 srcPath dstPath with
      | (s2, some err) => (s2, some err)
      | (s2, none) => backupEntries recur srcDir dstDir s2 rest
    else
      match readFile s srcPath with
      | .error _ => backupEntries recur srcDir dstDir s rest
      | .ok srcFile =>
        backupEntries recur srcDir dstDir (writeFile s dstPath srcFile entry.mode).1 rest

/-- Go `FM24Tool.backupDirectory`; `depth` bounds the nesting of the recursive
calls, a call beyond it failing with `tooDeep`. -/
def backupDirectory : Nat → FS → Path → Path → FS × Option Err
  | 0, s, _, _ => (s, some .tooDeep)
  | depth + 1, s, srcDir, dstDir =>
    match readDir s srcDir with
    | .error err => (s, some err)
    | .ok entries => backupEntries (backupDirectory depth) srcDir dstDir s entries

/-- Go `FM24Tool.backupFile`. The recursion of `backupDirectory` is given one
level per entry of the filesystem and one more, which a directory tree that the
copy does not write into cannot exceed (`backupFile_depth`); a copy into the
directory being copied ends with the error `tooDeep` where the program ends
with the error of a path that is too long. -/
def backupFile (t : FM24Tool) (s : FS) (srcPath : Path) : FS × Option Err :=
  let relPath := filepathRel (pathOf t.DBBasePath) srcPath
  let dstPath := joinComps (pathOf t.BackupDir) relPath
  let dstDir := filepathDir dstPath
  match mkdirAll s dstDir 0o755 with
  | (s1, some err) => (s1, some err)
  | (s1, none) =>
    match stat s1 srcPath with
    | none => (s1, some (lookupError s1 srcPath))
    | some srcInfo =>
      if srcInfo.isDir then backupDirectory (s1.length + 1) s1 srcPath dstPath
      else
        match readFile s1 srcPath with
        | .error err => (s1, some err)
        | .ok srcFile => writeFile s1 dstPath srcFile srcInfo.mode

/-- The test `len(name) >= 5 && name[:5] == "japan"` of `findJapanFiles`: the
length counts bytes, and five bytes equal to `japan` are five characters. -/
def japanName (name : String) : Bool :=
  decide (5 ≤ name.utf8ByteSize) && (name.toList.take 5 == ['j', 'a', 'p', 'a', 'n'])

/-- The loop of `findJapanFiles` over the listing of `japanDir`. -/
def collectJapan (japanDir : Path) : List DirEntry → List Path
  | [] => []
  | entry :: rest =>
    if !entry.isDir && japanName entry.name then
      joinPath japanDir entry.name :: collectJapan japanDir rest
    else collectJapan japanDir rest

/-- Go `FM24Tool.findJapanFiles`: nothing and no error when `os.Stat` reports
that `japanDir` does not exist; after any other outcome of `os.Stat` the
directory is listed, and an error of `os.ReadDir` is returned. -/
def findJapanFiles (t : FM24Tool) (s : FS) : List Path × Option Err :=
  let japanDir := joinPath (pathOf t.DBBasePath) "dbc/permanent"
  if IsNotExist (statError s japanDir) then ([], none)
  else
    match readDir s japanDir with
    | .error err => ([], some err)
    | .ok entries => (collectJapan japanDir entries, none)

/-- A call the program makes while it deletes: `backup p ok` is a call
`t.backupFile(p)` and `remove p ok` a call `os.RemoveAll(p)` or `os.Remove(p)`;
`ok` tells whether the call returned a nil error (the count of deletions goes
up after a remove exactly when it did). -/
inductive Event where
  | backup (p : Path) (ok : Bool)
  | remove (p : Path) (ok : Bool)
deriving DecidableEq, Repr

/-- The filesystem after a piece of the run, the calls it made in order, and
what it adds to `deletedCount`. -/
structure Step where
  fs : FS
  trace : List Event
  deleted : Nat
deriving DecidableEq, Repr

/-- The loop of `deleteDirectoryContents` over the listing of `dirPath`. -/
def deleteEntries (t : FM24Tool) (dirPath : Path) : FS → List DirEntry → Step
  | s, [] => ⟨s, [], 0⟩
  | s, entry :: rest =>
    let fullPath := joinPath dirPath entry.name
    let b := backupFile t s fullPath
    let r := removeAll b.1 fullPath
    let k := deleteEntries t dirPath r.1 rest
    ⟨k.fs, .backup fullPath b.2.isNone :: .remove fullPath r.2.isNone :: k.trace,
      (if r.2.isNone then 1 else 0) + k.deleted⟩

/-- Go `FM24Tool.deleteDirectoryContents`: the count and the error it returns,
with the filesystem it leaves and the calls it made. -/
def deleteDirectoryContents (t : FM24Tool) (s : FS) (dirPath : Path) : Step × Option Err :=
  match readDir s dirPath with
  | .error err => (⟨s, [], 0⟩, some err)
  | .ok entries => (deleteEntries t dirPath s entries, none)

/-- Body of the loop of `executeRealNameProcess` for one target; each branch
adds one to `totalFiles`. -/
def processTarget (t : FM24Tool) (s : FS) (target : TargetFile) : Step :=
  let fullPath := joinPath (pathOf t.DBBasePath) target.Path
  if target.IsDirectory && target.DeleteAll then
    match stat s fullPath with
    | some info =>
      if info.isDir then (deleteDirectoryContents t s fullPath).1
      else ⟨s, [], 0⟩
    | none => ⟨s, [], 0⟩
  else
    match stat s fullPath with
    | some _ =>
      let b := backupFile t s fullPath
      let r := removeAll b.1 fullPath
      ⟨r.1, [.backup fullPath b.2.isNone, .remove fullPath r.2.isNone],
        if r.2.isNone then 1 else 0⟩
    | none => ⟨s, [], 0⟩

/-- The running values of `executeRealNameProcess`. -/
structure Run where
  fs : FS
  trace : List Event
  totalFiles : Nat
  deletedCount : Nat
deriving DecidableEq, Repr

/-- The first loop of `executeRealNameProcess`, over `t.TargetFiles`. -/
def processTargets (t : FM24Tool) : Run → List TargetFile → Run
  | r, [] => r
  | r, target :: rest =>
    let k := processTarget t r.fs target
    processTargets t ⟨k.fs, r.trace ++ k.trace, r.totalFiles + 1, r.deletedCount + k.deleted⟩ rest

/-- Body of the second loop of `executeRealNameProcess` for one file. -/
def processJapanFile (t : FM24Tool) (r : Run) (jpFile : Path) : Run :=
  let b := backupFile t r.fs jpFile
  let d := remove b.1 jpFile
  ⟨d.1, r.trace ++ [.backup jpFile b.2.isNone, .remove jpFile d.2.isNone],
    r.totalFiles + 1, r.deletedCount + (if d.2.isNone then 1 else 0)⟩

/-- The second loop of `executeRealNameProcess`, over the files that
`findJapanFiles` returned. -/
def processJapan (t : FM24Tool) : Run → List Path → Run
  | r, [] => r
  | r, jpFile :: rest => processJapan t (processJapanFile t r jpFile) rest

/-- Go `FM24Tool.executeRealNameProcess`: the values it returns (the error is
always nil), with the filesystem it leaves and the calls it made. -/
def executeRealNameProcess (t : FM24Tool) (s : FS) : Run × Option Err :=
  let r1 := processTargets t ⟨s, [], 0, 0⟩ t.TargetFiles
  let japanFiles := (findJapanFiles t r1.fs).1
  (processJapan t r1 japanFiles, none)

/-! ## Status check -/

/-- The listing that `entries, _ := os.ReadDir(p)` leaves in `entries`: nothing
when the call fails. -/
def entriesOrNone (s : FS) (p : Path) : List DirEntry :=
  match readDir s p with
  | .ok entries => entries
  | .error _ => []

/-- Body of the loop of `CheckStatus` for one target: the value of `exists`
when the counts are updated. -/
def checkTarget (t : FM24Tool) (s : FS) (target : TargetFile) : Bool :=
  let fullPath := joinPath (pathOf t.DBBasePath) target.Path
  if target.IsDirectory then
    match stat s fullPath with
    | some info =>
      if info.isDir then
        let entries := entriesOrNone s fullPath
        if entries.length > 0 then true else false
      else false
    | none => false
  else
    match stat s fullPath with
    | some _ => true
    | none => false

/-- The two counts of `CheckStatus`. -/
structure Counts where
  existCount : Nat
  deletedCount : Nat
deriving DecidableEq, Repr

/-- The loop of `CheckStatus` over `t.TargetFiles`. -/
def checkTargets (t : FM24Tool) (s : FS) : Counts → List TargetFile → Counts
  | c, [] => c
  | c, target :: rest =>
    if checkTarget t s target then
      checkTargets t s ⟨c.existCount + 1, c.deletedCount⟩ rest
    else
      checkTargets t s ⟨c.existCount, c.deletedCount + 1⟩ rest

/-- What a call of `CheckStatus` leaves: the error it returns, the tool, the
two counts of the summary line (zero when it returns before that line) and the
filesystem after the call. -/
structure Check where
  err : Option Err
  tool : FM24Tool
  existCount : Nat
  deletedCount : Nat
  fs : FS
deriving DecidableEq, Repr

/-- Go `FM24Tool.CheckStatus`. It makes no call that changes the filesystem. -/
def CheckStatus (env : Env) (s : FS) (t : FM24Tool) (customPath : String) : Check :=
  match DetectInstallation env s t customPath with
  | (some err, t1) => ⟨some err, t1, 0, 0, s⟩
  | (none, t1) =>
    let c := checkTargets t1 s ⟨0, 0⟩ t1.TargetFiles
    let japanFiles := (findJapanFiles t1 s).1
    if japanFiles.length > 0 then
      ⟨none, t1, c.existCount + japanFiles.length, c.deletedCount, s⟩
    else
      ⟨none, t1, c.existCount, c.deletedCount, s⟩

/-! ## Backup directory and report -/

/-- The fields of `time.Now()` that the layout `20060102_150405` prints. -/
structure Time where
  year : Nat
  month : Nat
  day : Nat
  hour : Nat
  minute : Nat
  second : Nat
deriving DecidableEq, Repr

/-- A number in decimal, with zeros in front up to the given width. -/
def padZero (width n : Nat) : String :=
  String.mk (List.replicate (width - (Nat.repr n).length) '0') ++ Nat.repr n

/-- Model of `time.Time.Format("20060102_150405")`. -/
def formatStamp (now : Time) : String :=
  padZero 4 now.year ++ padZero 2 now.month ++ padZero 2 now.day ++ "_" ++
    padZero 2 now.hour ++ padZero 2 now.minute ++ padZero 2 now.second

/-- Go `FM24Tool.createBackupDir`, called at the time `now`: the filesystem
after the call, the error it returns and the tool. -/
def createBackupDir (env : Env) (now : Time) (s : FS) (t : FM24Tool) :
    FS × Option Err × FM24Tool :=
  match env.home with
  | none => (s, some .noHome, t)
  | some home =>
    let timestamp := formatStamp now
    let t1 := { t with BackupDir := filepathJoin [home, "FM24_Backup", timestamp] }
    let m := mkdirAll s (pathOf t1.BackupDir) 0o755
    (m.1, m.2, t1)

/-- The part of `LoadConfig` that follows the parsing of the file: an empty
backup directory becomes `home/FM24_Backup`. -/
def defaultBackupDirectory (env : Env) (config : Config) : Config :=
  if config.Backup.Directory = "" then
    { config with Backup := { config.Backup with
        Directory := filepathJoin [env.homeOrEmpty, "FM24_Backup"] } }
  else config

/-- The numbers that `generateReport` prints: targets, successes, failures,
and the backup location. -/
structure Report where
  totalFiles : Int
  deleted : Int
  failed : Int
  backupDir : String
deriving DecidableEq, Repr

/-- Go `FM24Tool.generateReport`. -/
def generateReport (t : FM24Tool) (totalFiles deletedCount : Int) : Report :=
  ⟨totalFiles, deletedCount, totalFiles - deletedCount, t.BackupDir⟩

/-! ## Vocabulary of the statements -/

/-- A fresh regular file. -/
def newFile (p : Path) (data : String) : Entry := ⟨p, false, data, 0o644, true, false⟩

/-- The entry `e` of a listing is a directory whose name `strconv.Atoi` reads as
`m`, and no directory of the listing reads as a larger number. -/
def IsLatest (entries : List DirEntry) (e : DirEntry) (m : Int) : Prop :=
  e ∈ entries ∧ e.isDir = true ∧ Atoi e.name = some m ∧
    ∀ e' ∈ entries, ∀ v, e'.isDir = true → Atoi e'.name = some v → v ≤ m

/-- A listing has a directory whose name `strconv.Atoi` accepts. -/
def HasVersionDir (entries : List DirEntry) : Prop :=
  ∃ e ∈ entries, e.isDir = true ∧ (Atoi e.name).isSome = true

/-- A configured install path of the current platform that exists and has a
version folder. -/
def Qualifies (env : Env) (s : FS) (c : InstallPath) : Prop :=
  c.Platform = env.goos ∧ statOk s c.Path = true ∧
    ∃ entries, readDir s (pathOf c.Path) = .ok entries ∧ HasVersionDir entries

/-- The five characters a name must begin with for the pattern scan. -/
def japanChars : List Char := ['j', 'a', 'p', 'a', 'n']

/-- A trace made of pairs: a backup of a path, then the remove of that path. -/
inductive Paired : List Event → Prop where
  | nil : Paired []
  | cons (p : Path) (b r : Bool) (tr : List Event) :
      Paired tr → Paired (.backup p b :: .remove p r :: tr)

/-- The regular files at or below a location. -/
def filesUnder (s : FS) (p : Path) : List Entry :=
  s.filter (fun e => !e.isDir && p.isPrefixOf e.path)

/-- A call `t.backupFile(p)` followed by `os.RemoveAll(p)`, as the program
does for every target. -/
def backupThenRemove (t : FM24Tool) (s : FS) (p : Path) : FS :=
  (removeAll (backupFile t s p).1 p).1

/-- A path element that `filepath.Clean` keeps as it is. -/
def okComp (c : String) : Prop := c ≠ "" ∧ c ≠ "." ∧ c ≠ ".."

/-- A proper file name: not empty, not `.` or `..`, and without a slash. -/
def plainName (c : String) : Prop := okComp c ∧ '/' ∉ c.toList

/-- Every component of every entry is a proper file name. -/
def WellNamed (s : FS) : Prop := ∀ e ∈ s, ∀ c ∈ e.path, plainName c

/-- The entries at or below a location, in the order of the filesystem. -/
def treeUnder (base : Path) (s : FS) : FS := s.filter (fun e => base.isPrefixOf e.path)

/-- Neither location lies at or below the other. -/
def Apart (a b : Path) : Prop := ¬ a <+: b ∧ ¬ b <+: a

/-- The event is a remove call that returned an error. -/
def Event.failedRemove : Event → Bool
  | .remove _ ok => !ok
  | .backup _ _ => false

/-- Every remove call of the trace returned a nil error. -/
def AllRemovesOk (tr : List Event) : Prop := ∀ ev ∈ tr, ev.failedRemove = false

/-- No manifest path has a `..` element. -/
def NoParentElement (targets : List TargetFile) : Prop :=
  ∀ target ∈ targets, ".." ∉ splitComps target.Path

/-- The part of `s'` under the base is the part of `s` under it, less the
entries at some locations. -/
def Evolves (base : Path) (s s' : FS) : Prop :=
  ∃ keep : Path → Bool,
    treeUnder base s' = (treeUnder base s).filter (fun e => keep e.path)

/-- The state in which the loop of `executeRealNameProcess` finds nothing to do
for a target: a target of the delete-all kind is not a readable directory or
has no entry, another target does not exist. -/
def Settled (base : Path) (s : FS) (target : TargetFile) : Prop :=
  if (target.IsDirectory && target.DeleteAll) = true then
    ∀ d, stat s (joinPath base target.Path) = some d → d.isDir = true → d.readable = true →
      s.filterMap (childOf (joinPath base target.Path)) = []
  else stat s (joinPath base target.Path) = none

/-- The state in which the pattern scan finds nothing. -/
def ScanSettled (base : Path) (s : FS) : Prop :=
  ∀ d, stat s (joinPath base "dbc/permanent") = some d → d.isDir = true → d.readable = true →
    collectJapan (joinPath base "dbc/permanent")
      (s.filterMap (childOf (joinPath base "dbc/permanent"))) = []

/-- Number of entries strictly below a location. -/
def below (s : FS) (p : Path) : Nat :=
  s.countP (fun e => p.isPrefixOf e.path && decide (p.length < e.path.length))

/-! ## Example filesystems -/

/-- A base directory `/db` holding the named subdirectories. -/
def versionsFS (names : List String) : FS :=
  [newDir [] 0o755, newDir ["db"] 0o755] ++ names.map (fun n => newDir ["db", n] 0o755)

/-- A macOS process. -/
def macEnv : Env := ⟨"darwin", some "/Users/u"⟩

/-- Five candidate roots: `/a`, `/d` and `/e` have version folders, `/c` has
none and `/b` does not exist. -/
def candidatesFS : FS :=
  [newDir [] 0o755, newDir ["a"] 0o755, newDir ["a", "2400"] 0o755,
   newDir ["c"] 0o755, newDir ["c", "notes"] 0o755,
   newDir ["d"] 0o755, newDir ["d", "2400"] 0o755, newDir ["d", "2440"] 0o755,
   newDir ["e"] 0o755, newDir ["e", "2500"] 0o755]

/-- A configuration listing the five roots of `candidatesFS`, the first for
another platform. -/
def candidatesConfig : Config :=
  { InstallPaths := [
      ⟨"win", "/a", "windows", ""⟩,
      ⟨"missing", "/b", "darwin", ""⟩,
      ⟨"empty", "/c", "darwin", ""⟩,
      ⟨"hit", "/d", "darwin", ""⟩,
      ⟨"later", "/e", "darwin", ""⟩ ]
    Backup := ⟨true, "/Users/u/FM24_Backup"⟩ }

/-- A configuration whose only install path is for another platform. -/
def windowsOnlyConfig : Config :=
  { InstallPaths := [⟨"win", "/a", "windows", ""⟩]
    Backup := ⟨true, "/Users/u/FM24_Backup"⟩ }

/-- A tool resolved to `/db/2400` that backs up to `/bak/ts`. -/
def demoTool : FM24Tool :=
  { NewFM24Tool ⟨[], ⟨true, "/home/u/FM24_Backup"⟩⟩ with
    DBBasePath := "/db/2400", BackupDir := "/bak/ts" }

/-- An empty version folder and an empty backup directory. -/
def demoBase : FS :=
  [newDir [] 0o755, newDir ["db"] 0o755, newDir ["db", "2400"] 0o755,
   newDir ["bak"] 0o755, newDir ["bak", "ts"] 0o755]

/-- The directory `dbc/permanent` with three files. -/
def japanFS : FS :=
  demoBase ++
  [newDir ["db", "2400", "dbc"] 0o755, newDir ["db", "2400", "dbc", "permanent"] 0o755,
   newFile ["db", "2400", "dbc", "permanent", "japan_a.dbc"] "a",
   newFile ["db", "2400", "dbc", "permanent", "other.dbc"] "b",
   newFile ["db", "2400", "dbc", "permanent", "japanese.txt"] "c"]

/-- The same with a subdirectory whose name begins with `japan`. -/
def japanDirFS : FS :=
  japanFS ++ [newDir ["db", "2400", "dbc", "permanent", "japan_old"] 0o755]

/-- A version folder in which `dbc` is a regular file. -/
def dbcFileFS : FS := demoBase ++ [newFile ["db", "2400", "dbc"] "x"]

/-- A child directory `sub` of `lnc/all` holding the file `a.txt` and the
directory `inner` with the file `b.txt`. -/
def lostFS : FS :=
  demoBase ++
  [newDir ["db", "2400", "lnc"] 0o755, newDir ["db", "2400", "lnc", "all"] 0o755,
   newDir ["db", "2400", "lnc", "all", "sub"] 0o755,
   newFile ["db", "2400", "lnc", "all", "sub", "a.txt"] "A",
   newDir ["db", "2400", "lnc", "all", "sub", "inner"] 0o755,
   newFile ["db", "2400", "lnc", "all", "sub", "inner", "b.txt"] "B"]

/-- The tool of `demoTool` at a later run, with another backup directory. -/
def laterTool : FM24Tool := { demoTool with BackupDir := "/bak/later" }

/-- The tree of `lostFS` with `dbc/permanent` holding a pattern file, a manifest
file and a file that is no target. -/
def fullFS : FS :=
  lostFS ++
  [newDir ["db", "2400", "dbc"] 0o755, newDir ["db", "2400", "dbc", "permanent"] 0o755,
   newFile ["db", "2400", "dbc", "permanent", "japan_a.dbc"] "a",
   newFile ["db", "2400", "dbc", "permanent", "license.dbc"] "b",
   newFile ["db", "2400", "dbc", "permanent", "keep.dbc"] "c"]

/-- A tool whose backup directory lies inside the target directory `lnc/all`,
as `createBackupDir` sets it for the home directory `/db/2400/lnc/all`. -/
def nestedTool : FM24Tool :=
  { NewFM24Tool ⟨[], ⟨true, "/db/2400/lnc/all/FM24_Backup"⟩⟩ with
    DBBasePath := "/db/2400", BackupDir := "/db/2400/lnc/all/FM24_Backup/20240101_120000" }

/-- The filesystem of `nestedTool` once the backup directory is created:
`lnc/all` holds `FM24_Backup` and the file `x.dat`. -/
def nestedFS : FS :=
  [newDir [] 0o755, newDir ["db"] 0o755, newDir ["db", "2400"] 0o755,
   newDir ["db", "2400", "lnc"] 0o755, newDir ["db", "2400", "lnc", "all"] 0o755,
   newDir ["db", "2400", "lnc", "all", "FM24_Backup"] 0o755,
   newDir ["db", "2400", "lnc", "all", "FM24_Backup", "20240101_120000"] 0o755,
   newFile ["db", "2400", "lnc", "all", "x.dat"] "X"]

/-- A version folder whose file `dbc/permanent/license.dbc` cannot be read. -/
def unreadableFS : FS :=
  demoBase ++
  [newDir ["db", "2400", "dbc"] 0o755, newDir ["db", "2400", "dbc", "permanent"] 0o755,
   ⟨["db", "2400", "dbc", "permanent", "license.dbc"], false, "L", 0o644, false, false⟩]

/-- The third of January 2024 at 03:04:05, written as Go prints it. -/
def stampTime : Time := ⟨2024, 1, 2, 3, 4, 5⟩

/-- A configuration whose backup directory is not the default one. -/
def customConfig : Config := ⟨[], ⟨true, "/Volumes/Backups/fm24"⟩⟩

/-- The backup setting that `DefaultConfig` gives for the home `/Users/u`. -/
def defaultConfig : Config := ⟨[], ⟨true, "/Users/u/FM24_Backup"⟩⟩

/-- The directory `lnc/all` with eleven files; every other target is absent. -/
def elevenFS : FS :=
  demoBase ++ [newDir ["db", "2400", "lnc"] 0o755, newDir ["db", "2400", "lnc", "all"] 0o755] ++
  (["01", "02", "03", "04", "05", "06", "07", "08", "09", "10", "11"].map
    (fun n => newFile ["db", "2400", "lnc", "all", n] n))

/-- The directory `lnc/all` with one file and a listing that cannot be read. -/
def lockedDirFS : FS :=
  demoBase ++ [newDir ["db", "2400", "lnc"] 0o755,
    ⟨["db", "2400", "lnc", "all"], true, "", 0o000, false, false⟩,
    newFile ["db", "2400", "lnc", "all", "a.lnc"] "a"]

/-- A version folder with `lnc/all` holding a file, `lnc/greek` empty, one
manifest file and one pattern file. -/
def statusFS : FS :=
  demoBase ++
  [newDir ["db", "2400", "lnc"] 0o755, newDir ["db", "2400", "lnc", "all"] 0o755,
   newFile ["db", "2400", "lnc", "all", "a.lnc"] "a",
   newDir ["db", "2400", "lnc", "greek"] 0o755,
   newDir ["db", "2400", "dbc"] 0o755, newDir ["db", "2400", "dbc", "permanent"] 0o755,
   newFile ["db", "2400", "dbc", "permanent", "license.dbc"] "a",
   newFile ["db", "2400", "dbc", "permanent", "japan_x.dbc"] "a"]

/-! ## Version-folder detection -/

theorem mem_collectVersions (entries : List DirEntry) (v : Int) :
    v ∈ collectVersions entries ↔
      ∃ e ∈ entries, e.isDir = true ∧ Atoi e.name = some v := by
  induction entries with
  | nil => simp [collectVersions]
  | cons e rest ih =>
    unfold collectVersions
    by_cases hd : e.isDir = true
    · cases ha : Atoi e.name with
      | none => simp [hd, ha, ih]
      | some w =>
        simp only [hd, if_true, List.mem_cons, ih, ha]
        constructor
        · rintro (h | h)
          · exact ⟨e, Or.inl rfl, hd, by rw [ha, h]⟩
          · obtain ⟨e', he', h1, h2⟩ := h
            exact ⟨e', Or.inr he', h1, h2⟩
        · rintro ⟨e', he' | he', h1, h2⟩
          · subst he'
            rw [ha] at h2
            exact Or.inl (Option.some.inj h2).symm
          · exact Or.inr ⟨e', he', h1, h2⟩
    · simp [hd, ih]

theorem sorted_getLastD_ge (l : List Int) (h : l.Sorted (fun a b => a ≤ b)) :
    ∀ x ∈ l, x ≤ l.getLastD 0 := by
  induction l with
  | nil => simp
  | cons a rest ih =>
    intro x hx
    have hs := List.sorted_cons.mp h
    cases rest with
    | nil => simp at hx; simp [hx]
    | cons b rest' =>
      have ih' := ih hs.2
      have e : (a :: b :: rest').getLastD 0 = (b :: rest').getLastD 0 := by
        simp [List.getLastD]
      rw [e]
      rcases List.mem_cons.mp hx with hx | hx
      · subst hx
        exact le_trans (hs.1 b (List.mem_cons_self _ _)) (ih' b (List.mem_cons_self _ _))
      · exact ih' x hx

theorem getLastD_mem (l : List Int) (d : Int) (h : l ≠ []) : l.getLastD d ∈ l := by
  induction l generalizing d with
  | nil => exact absurd rfl h
  | cons a rest ih =>
    cases rest with
    | nil => simp [List.getLastD]
    | cons b rest' =>
      have := ih a (List.cons_ne_nil _ _)
      exact List.mem_cons_of_mem _ this

theorem sortInts_latest (l : List Int) (h : l ≠ []) :
    (sortInts l).getLastD 0 ∈ l ∧ ∀ x ∈ l, x ≤ (sortInts l).getLastD 0 := by
  have hp : (sortInts l).Perm l := List.perm_insertionSort _ l
  have hs : (sortInts l).Sorted (fun a b => a ≤ b) := List.sorted_insertionSort _ l
  have hne : sortInts l ≠ [] := by
    intro e
    rw [e] at hp
    exact h hp.symm.eq_nil
  exact ⟨hp.subset (getLastD_mem _ 0 hne), fun x hx => sorted_getLastD_ge _ hs x (hp.symm.subset hx)⟩

theorem collectVersions_ne_nil_iff (entries : List DirEntry) :
    collectVersions entries ≠ [] ↔ HasVersionDir entries := by
  constructor
  · intro h
    obtain ⟨v, hv⟩ := List.exists_mem_of_ne_nil _ h
    obtain ⟨e, he, hd, ha⟩ := (mem_collectVersions entries v).mp hv
    exact ⟨e, he, hd, by simp [ha]⟩
  · rintro ⟨e, he, hd, ha⟩ h
    obtain ⟨v, hv⟩ := Option.isSome_iff_exists.mp ha
    have := (mem_collectVersions entries v).mpr ⟨e, he, hd, hv⟩
    rw [h] at this
    exact List.not_mem_nil _ this

theorem detectVersionFolder_of_readDir (s : FS) (basePath : String) (entries : List DirEntry)
    (hread : readDir s (pathOf basePath) = .ok entries) :
    detectVersionFolder s basePath =
      if (collectVersions entries).length = 0 then .error .noVersionFolder
      else .ok (filepathJoin [basePath,
        Itoa ((sortInts (collectVersions entries)).getLastD 0)]) := by
  unfold detectVersionFolder
  rw [hread]

theorem detectVersionFolder_latest (s : FS) (basePath : String) (entries : List DirEntry)
    (hread : readDir s (pathOf basePath) = .ok entries) (hsome : HasVersionDir entries) :
    ∃ e m, IsLatest entries e m ∧
      detectVersionFolder s basePath = .ok (filepathJoin [basePath, Itoa m]) := by
  have hne := (collectVersions_ne_nil_iff entries).mpr hsome
  obtain ⟨hmem, hmax⟩ := sortInts_latest _ hne
  obtain ⟨e, he, hd, ha⟩ := (mem_collectVersions entries _).mp hmem
  refine ⟨e, _, ⟨he, hd, ha, ?_⟩, ?_⟩
  · intro e' he' v hd' ha'
    exact hmax v ((mem_collectVersions entries v).mpr ⟨e', he', hd', ha'⟩)
  · rw [detectVersionFolder_of_readDir s basePath entries hread]
    have : (collectVersions entries).length ≠ 0 := by
      intro h0
      exact hne (List.length_eq_zero.mp h0)
    rw [if_neg this]

theorem detectVersionFolder_ok_inv (s : FS) (basePath v : String)
    (h : detectVersionFolder s basePath = .ok v) :
    ∃ entries, readDir s (pathOf basePath) = .ok entries ∧ HasVersionDir entries := by
  cases hread : readDir s (pathOf basePath) with
  | error err =>
    unfold detectVersionFolder at h
    rw [hread] at h
    cases h
  | ok entries =>
    refine ⟨entries, rfl, ?_⟩
    rw [detectVersionFolder_of_readDir s basePath entries hread] at h
    by_cases h0 : (collectVersions entries).length = 0
    · rw [if_pos h0] at h
      cases h
    · exact (collectVersions_ne_nil_iff entries).mp (fun e => h0 (by rw [e]; rfl))

/-- Claim C1, as amended. When the listing of the base directory has a
subdirectory whose name `strconv.Atoi` accepts, `detectVersionFolder` succeeds;
some such subdirectory `e` reads as the largest number `m` among them (numeric
comparison, regular files not counted), and the returned path is the base
joined with `e` whenever the name of `e` is the decimal rendering of `m`. -/
theorem detectVersionFolder_selects_max (s : FS) (basePath : String)
    (entries : List DirEntry)
    (hread : readDir s (pathOf basePath) = .ok entries)
    (hsome : ∃ e ∈ entries, e.isDir = true ∧ (Atoi e.name).isSome = true) :
    ∃ e m r, e ∈ entries ∧ e.isDir = true ∧ Atoi e.name = some m ∧
      (∀ e' ∈ entries, ∀ v, e'.isDir = true → Atoi e'.name = some v → v ≤ m) ∧
      detectVersionFolder s basePath = .ok r ∧
      (Itoa m = e.name → r = filepathJoin [basePath, e.name]) := by
  obtain ⟨e, m, ⟨he, hd, ha, hmax⟩, hres⟩ :=
    detectVersionFolder_latest s basePath entries hread hsome
  exact ⟨e, m, _, he, hd, ha, hmax, hres, fun h => by rw [h]⟩

/-- Claim C1 at the subdirectories `10`, `9`, `100` and a regular file `2400`:
the result is `/db/100`. -/
theorem detectVersionFolder_selects_max_witness :
    (readDir (versionsFS ["10", "9", "100"] ++ [newFile ["db", "2400"] "x"]) (pathOf "/db") =
        .ok [⟨"10", true, 0o755⟩, ⟨"9", true, 0o755⟩, ⟨"100", true, 0o755⟩,
             ⟨"2400", false, 0o644⟩]) ∧
    detectVersionFolder (versionsFS ["10", "9", "100"] ++ [newFile ["db", "2400"] "x"]) "/db" =
      .ok "/db/100" ∧
    ∃ e m r,
      e ∈ [⟨"10", true, 0o755⟩, ⟨"9", true, 0o755⟩, ⟨"100", true, 0o755⟩,
           (⟨"2400", false, 0o644⟩ : DirEntry)] ∧
      e.isDir = true ∧ Atoi e.name = some m ∧
      (∀ e' ∈ [⟨"10", true, 0o755⟩, ⟨"9", true, 0o755⟩, ⟨"100", true, 0o755⟩,
           (⟨"2400", false, 0o644⟩ : DirEntry)],
        ∀ v, e'.isDir = true → Atoi e'.name = some v → v ≤ m) ∧
      detectVersionFolder (versionsFS ["10", "9", "100"] ++ [newFile ["db", "2400"] "x"])
        "/db" = .ok r ∧
      (Itoa m = e.name → r = filepathJoin ["/db", e.name]) :=
  ⟨rfl, rfl, detectVersionFolder_selects_max _ "/db" _ rfl
    ⟨⟨"10", true, 0o755⟩, by decide, rfl, rfl⟩⟩

/-- Claim C1 as stated fails: a subdirectory named by twenty digits is an
integer name, yet detection fails; and with the subdirectories `0100` and `9`
the result `/db/100` is not the subdirectory of largest value. -/
theorem detectVersionFolder_integer_name_counterexample :
    (readDir (versionsFS ["99999999999999999999"]) (pathOf "/db") =
        .ok [⟨"99999999999999999999", true, 0o755⟩] ∧
      detectVersionFolder (versionsFS ["99999999999999999999"]) "/db" =
        .error .noVersionFolder) ∧
    (readDir (versionsFS ["0100", "9"]) (pathOf "/db") =
        .ok [⟨"0100", true, 0o755⟩, ⟨"9", true, 0o755⟩] ∧
      detectVersionFolder (versionsFS ["0100", "9"]) "/db" = .ok "/db/100" ∧
      filepathJoin ["/db", "0100"] = "/db/0100" ∧
      stat (versionsFS ["0100", "9"]) (pathOf "/db/100") = none) :=
  ⟨⟨rfl, rfl⟩, rfl, rfl, rfl, rfl⟩

theorem parseDigits_digits (ds : List Char) (acc n : Nat) (h : parseDigits ds acc = some n) :
    ∀ c ∈ ds, '0' ≤ c ∧ c ≤ '9' := by
  induction ds generalizing acc with
  | nil => intro c hc; cases hc
  | cons d rest ih =>
    unfold parseDigits at h
    by_cases hd : '0' ≤ d ∧ d ≤ '9'
    · rw [if_pos hd] at h
      intro c hc
      rcases List.mem_cons.mp hc with hc | hc
      · subst hc; exact hd
      · exact ih _ h c hc
    · rw [if_neg hd] at h
      cases h

theorem parseMagnitude_digits (ds : List Char) (n : Nat) (h : parseMagnitude ds = some n) :
    ds ≠ [] ∧ ∀ c ∈ ds, '0' ≤ c ∧ c ≤ '9' := by
  unfold parseMagnitude at h
  cases ds with
  | nil => simp at h
  | cons d rest =>
    simp only [List.isEmpty_cons] at h
    exact ⟨List.cons_ne_nil _ _, parseDigits_digits _ _ _ h⟩

theorem Atoi_some_inv (name : String) (v : Int) (h : Atoi name = some v) :
    ∃ digits, (name.toList = digits ∨ name.toList = '-' :: digits ∨ name.toList = '+' :: digits) ∧
      digits ≠ [] ∧ (∀ c ∈ digits, '0' ≤ c ∧ c ≤ '9') ∧
      -(2 : Int) ^ 63 ≤ v ∧ v < (2 : Int) ^ 63 := by
  unfold Atoi at h
  split at h
  · cases h
  · rename_i ds heq
    cases hm : parseMagnitude ds with
    | none => rw [hm] at h; cases h
    | some n =>
      rw [hm] at h
      simp only [intSize] at h
      split at h
      · rename_i hle
        cases h
        obtain ⟨h1, h2⟩ := parseMagnitude_digits ds n hm
        refine ⟨ds, Or.inr (Or.inl heq), h1, h2, ?_, ?_⟩
        · have : (n : Int) ≤ 2 ^ 63 := by exact_mod_cast hle
          omega
        · have : (0 : Int) ≤ n := Int.ofNat_nonneg n
          have : (0:Int) < 2 ^ 63 := by norm_num
          omega
      · cases h
  · rename_i ds heq
    cases hm : parseMagnitude ds with
    | none => rw [hm] at h; cases h
    | some n =>
      rw [hm] at h
      simp only [intSize] at h
      split at h
      · rename_i hle
        cases h
        obtain ⟨h1, h2⟩ := parseMagnitude_digits ds n hm
        refine ⟨ds, Or.inr (Or.inr heq), h1, h2, ?_, ?_⟩
        · have : (0 : Int) ≤ n := Int.ofNat_nonneg n
          have : (0:Int) < 2 ^ 63 := by norm_num
          omega
        · exact_mod_cast hle
      · cases h
  · rename_i ds h1 h2 h3
    cases hm : parseMagnitude name.toList with
    | none => rw [hm] at h; cases h
    | some n =>
      rw [hm] at h
      simp only [intSize] at h
      split at h
      · rename_i hle
        cases h
        obtain ⟨h1, h2⟩ := parseMagnitude_digits _ n hm
        refine ⟨name.toList, Or.inl rfl, h1, h2, ?_, ?_⟩
        · have : (0 : Int) ≤ n := Int.ofNat_nonneg n
          have : (0:Int) < 2 ^ 63 := by norm_num
          omega
        · exact_mod_cast hle
      · cases h

/-- Claim C9, as amended. For a readable base directory, `detectVersionFolder`
fails with the no-version-folder error exactly when no subdirectory has a name
that `strconv.Atoi` accepts; an accepted name is an optional sign followed by
one or more decimal digits, with a value in the range of a 64-bit `int`. -/
theorem detectVersionFolder_fails_iff (s : FS) (basePath : String) (entries : List DirEntry)
    (hread : readDir s (pathOf basePath) = .ok entries) :
    (detectVersionFolder s basePath = .error .noVersionFolder ↔
      ∀ e ∈ entries, e.isDir = true → Atoi e.name = none) ∧
    (∀ e ∈ entries, ∀ v, Atoi e.name = some v →
      ∃ digits, (e.name.toList = digits ∨ e.name.toList = '-' :: digits ∨
          e.name.toList = '+' :: digits) ∧
        digits ≠ [] ∧ (∀ c ∈ digits, '0' ≤ c ∧ c ≤ '9') ∧
        -(2 : Int) ^ 63 ≤ v ∧ v < (2 : Int) ^ 63) := by
  refine ⟨?_, fun e _ v hv => Atoi_some_inv e.name v hv⟩
  rw [detectVersionFolder_of_readDir s basePath entries hread]
  constructor
  · intro h e he hd
    by_cases h0 : (collectVersions entries).length = 0
    · cases ha : Atoi e.name with
      | none => rfl
      | some v =>
        have := (mem_collectVersions entries v).mpr ⟨e, he, hd, ha⟩
        rw [List.length_eq_zero.mp h0] at this
        exact absurd this (List.not_mem_nil _)
    · rw [if_neg h0] at h
      cases h
  · intro h
    have h0 : (collectVersions entries).length = 0 := by
      rw [List.length_eq_zero]
      by_contra hne
      obtain ⟨e, he, hd, ha⟩ := (collectVersions_ne_nil_iff entries).mp hne
      rw [h e he hd] at ha
      cases ha
    rw [if_pos h0]

/-- Claim C9 at the subdirectories `abc` and `12x`. -/
theorem detectVersionFolder_fails_iff_witness :
    readDir (versionsFS ["abc", "12x"]) (pathOf "/db") =
      .ok [⟨"abc", true, 0o755⟩, ⟨"12x", true, 0o755⟩] ∧
    detectVersionFolder (versionsFS ["abc", "12x"]) "/db" = .error .noVersionFolder ∧
    (detectVersionFolder (versionsFS ["abc", "12x"]) "/db" = .error .noVersionFolder ↔
      ∀ e ∈ [⟨"abc", true, 0o755⟩, (⟨"12x", true, 0o755⟩ : DirEntry)],
        e.isDir = true → Atoi e.name = none) :=
  ⟨rfl, rfl, (detectVersionFolder_fails_iff (versionsFS ["abc", "12x"]) "/db" _ rfl).1⟩

/-- Claim C9 as stated fails: a base whose only subdirectory is `-5`, or `+5`,
has no subdirectory named by a non-negative integer written in digits alone,
yet detection succeeds. -/
theorem detectVersionFolder_signed_name_counterexample :
    (readDir (versionsFS ["-5"]) (pathOf "/db") = .ok [⟨"-5", true, 0o755⟩] ∧
      detectVersionFolder (versionsFS ["-5"]) "/db" = .ok "/db/-5") ∧
    (readDir (versionsFS ["+5"]) (pathOf "/db") = .ok [⟨"+5", true, 0o755⟩] ∧
      detectVersionFolder (versionsFS ["+5"]) "/db" = .ok "/db/5") :=
  ⟨⟨rfl, rfl⟩, rfl, rfl⟩

/-- Claim C10 at the failing input: the only subdirectory is `007`, detection
succeeds and returns `/db/7`, which is not the base joined with a listed name
and does not exist. -/
theorem detectVersionFolder_leading_zero :
    readDir (versionsFS ["007"]) (pathOf "/db") = .ok [⟨"007", true, 0o755⟩] ∧
    detectVersionFolder (versionsFS ["007"]) "/db" = .ok "/db/7" ∧
    stat (versionsFS ["007"]) (pathOf "/db/7") = none ∧
    (∀ e ∈ [(⟨"007", true, 0o755⟩ : DirEntry)], filepathJoin ["/db", e.name] ≠ "/db/7") :=
  ⟨rfl, rfl, rfl, by decide⟩

/-! ## Installation discovery -/

theorem detectVersionFolder_error_of_not (s : FS) (p : String)
    (h : ¬ ∃ entries, readDir s (pathOf p) = .ok entries ∧ HasVersionDir entries) :
    ∃ err, detectVersionFolder s p = .error err := by
  cases hd : detectVersionFolder s p with
  | error err => exact ⟨err, rfl⟩
  | ok v => exact absurd (detectVersionFolder_ok_inv s p v hd) h

theorem detectFromConfig_skip (env : Env) (s : FS) (x : InstallPath) (rest : List InstallPath)
    (hx : ¬ Qualifies env s x) :
    detectFromConfig s env.goos (x :: rest) = detectFromConfig s env.goos rest := by
  unfold Qualifies at hx
  rw [detectFromConfig]
  by_cases hp : x.Platform = env.goos
  · by_cases hs : statOk s x.Path = true
    · have hno : ¬ ∃ entries, readDir s (pathOf x.Path) = .ok entries ∧ HasVersionDir entries :=
        fun h => hx ⟨hp, hs, h⟩
      obtain ⟨err, herr⟩ := detectVersionFolder_error_of_not s x.Path hno
      simp [hp, hs, herr]
    · simp [hp, hs]
  · simp [hp]

theorem detectFromConfig_first (env : Env) (s : FS) (pre : List InstallPath) (c : InstallPath)
    (post : List InstallPath) (v : String)
    (hpre : ∀ x ∈ pre, ¬ Qualifies env s x) (hc : Qualifies env s c)
    (hv : detectVersionFolder s c.Path = .ok v) :
    detectFromConfig s env.goos (pre ++ c :: post) = some v := by
  induction pre with
  | nil =>
    rw [List.nil_append, detectFromConfig]
    simp [hc.1, hc.2.1, hv]
  | cons x rest ih =>
    rw [List.cons_append, detectFromConfig_skip env s x _ (hpre x (List.mem_cons_self _ _))]
    exact ih (fun y hy => hpre y (List.mem_cons_of_mem _ hy))

theorem exists_first (P : InstallPath → Prop) (l : List InstallPath) (h : ∃ c ∈ l, P c) :
    ∃ pre c post, l = pre ++ c :: post ∧ (∀ x ∈ pre, ¬ P x) ∧ P c := by
  induction l with
  | nil =>
    obtain ⟨c, hc, _⟩ := h
    cases hc
  | cons a rest ih =>
    by_cases ha : P a
    · exact ⟨[], a, rest, rfl, fun x hx => absurd hx (List.not_mem_nil x), ha⟩
    · have h' : ∃ c ∈ rest, P c := by
        obtain ⟨c, hc, hp⟩ := h
        rcases List.mem_cons.mp hc with hc | hc
        · subst hc; exact absurd hp ha
        · exact ⟨c, hc, hp⟩
      obtain ⟨pre, c, post, hl, hpre, hc⟩ := ih h'
      refine ⟨a :: pre, c, post, by rw [hl]; rfl, ?_, hc⟩
      intro x hx
      rcases List.mem_cons.mp hx with hx | hx
      · subst hx; exact ha
      · exact hpre x hx

theorem DetectInstallation_config (env : Env) (s : FS) (t : FM24Tool) (v : String)
    (h : detectFromConfig s env.goos t.Config.InstallPaths = some v) :
    DetectInstallation env s t "" = (none, { t with DBBasePath := v }) := by
  unfold DetectInstallation
  simp [h]

/-- Claim C2, as amended. With no override path, when some configured install
path of the current platform exists and has a subdirectory whose name
`strconv.Atoi` accepts, `DetectInstallation` succeeds and sets `DBBasePath` to
what `detectVersionFolder` returns for the earliest such path `c`: the base
joined with the subdirectory `e` of largest value `m` when the name of `e` is
the decimal rendering of `m`. The entries before `c` are of another platform,
missing or without a version folder, and the result is the same whatever
follows `c` in the list. -/
theorem DetectInstallation_first_match (env : Env) (s : FS) (t : FM24Tool)
    (h : ∃ c ∈ t.Config.InstallPaths, Qualifies env s c) :
    ∃ pre c post entries e m v,
      t.Config.InstallPaths = pre ++ c :: post ∧
      (∀ x ∈ pre, ¬ Qualifies env s x) ∧ Qualifies env s c ∧
      readDir s (pathOf c.Path) = .ok entries ∧ IsLatest entries e m ∧
      detectVersionFolder s c.Path = .ok v ∧
      (Itoa m = e.name → v = filepathJoin [c.Path, e.name]) ∧
      DetectInstallation env s t "" = (none, { t with DBBasePath := v }) ∧
      ∀ (post' : List InstallPath) (t' : FM24Tool),
        t'.Config.InstallPaths = pre ++ c :: post' →
        DetectInstallation env s t' "" = (none, { t' with DBBasePath := v }) := by
  obtain ⟨pre, c, post, hl, hpre, hc⟩ := exists_first (Qualifies env s) _ h
  obtain ⟨entries, hread, hsome⟩ := hc.2.2
  obtain ⟨e, m, hlatest, hres⟩ := detectVersionFolder_latest s c.Path entries hread hsome
  refine ⟨pre, c, post, entries, e, m, _, hl, hpre, hc, hread, hlatest, hres,
    fun hm => by rw [hm], ?_, ?_⟩
  · apply DetectInstallation_config
    rw [hl]
    exact detectFromConfig_first env s pre c post _ hpre hc hres
  · intro post' t' ht'
    apply DetectInstallation_config
    rw [ht']
    exact detectFromConfig_first env s pre c post' _ hpre hc hres

/-- The run of `DetectInstallation` on the five candidates. -/
theorem DetectInstallation_candidates :
    DetectInstallation macEnv candidatesFS (NewFM24Tool candidatesConfig) "" =
      (none, { NewFM24Tool candidatesConfig with DBBasePath := "/d/2440" }) := by rfl

/-- Claim C2 at the five candidates of `candidatesConfig`. -/
theorem DetectInstallation_first_match_witness :
    (∃ c ∈ (NewFM24Tool candidatesConfig).Config.InstallPaths,
      Qualifies macEnv candidatesFS c) ∧
    ∃ pre c post entries e m v,
      (NewFM24Tool candidatesConfig).Config.InstallPaths = pre ++ c :: post ∧
      (∀ x ∈ pre, ¬ Qualifies macEnv candidatesFS x) ∧ Qualifies macEnv candidatesFS c ∧
      readDir candidatesFS (pathOf c.Path) = .ok entries ∧ IsLatest entries e m ∧
      detectVersionFolder candidatesFS c.Path = .ok v ∧
      (Itoa m = e.name → v = filepathJoin [c.Path, e.name]) ∧
      DetectInstallation macEnv candidatesFS (NewFM24Tool candidatesConfig) "" =
        (none, { NewFM24Tool candidatesConfig with DBBasePath := v }) ∧
      ∀ (post' : List InstallPath) (t' : FM24Tool),
        t'.Config.InstallPaths = pre ++ c :: post' →
        DetectInstallation macEnv candidatesFS t' "" = (none, { t' with DBBasePath := v }) :=
  have h : ∃ c ∈ (NewFM24Tool candidatesConfig).Config.InstallPaths,
      Qualifies macEnv candidatesFS c :=
    ⟨⟨"hit", "/d", "darwin", ""⟩, by decide, rfl, rfl, _, rfl,
      ⟨"2400", true, 0o755⟩, by decide, rfl, rfl⟩
  ⟨h, DetectInstallation_first_match macEnv candidatesFS (NewFM24Tool candidatesConfig) h⟩

/-- Claim C2 as stated fails: the only candidate exists and has the version
folder `2400`, but it is configured for another platform, and
`DetectInstallation` returns the installation-not-found error. -/
theorem DetectInstallation_other_platform_counterexample :
    statOk candidatesFS "/a" = true ∧
    readDir candidatesFS (pathOf "/a") = .ok [⟨"2400", true, 0o755⟩] ∧
    Atoi "2400" = some 2400 ∧
    DetectInstallation macEnv candidatesFS (NewFM24Tool windowsOnlyConfig) "" =
      (some .installationNotFound, NewFM24Tool windowsOnlyConfig) :=
  ⟨rfl, rfl, rfl, rfl⟩

/-- Claim C3. For a non-empty override path that does not exist,
`DetectInstallation` returns the path-not-found error and leaves the tool, so
`DBBasePath`, unchanged, whatever the candidates, the process and the rest of
the filesystem are. -/
theorem DetectInstallation_missing_override (env : Env) (s : FS) (t : FM24Tool)
    (customPath : String) (hne : customPath ≠ "") (hmiss : statOk s customPath = false) :
    DetectInstallation env s t customPath = (some (.pathNotFound customPath), t) := by
  unfold DetectInstallation
  simp [hne, hmiss]

/-- Claim C3 at the missing override `/nowhere`. -/
theorem DetectInstallation_missing_override_witness :
    ("/nowhere" ≠ "") ∧ statOk candidatesFS "/nowhere" = false ∧
    DetectInstallation macEnv candidatesFS (NewFM24Tool candidatesConfig) "/nowhere" =
      (some (.pathNotFound "/nowhere"), NewFM24Tool candidatesConfig) :=
  ⟨by decide, rfl, DetectInstallation_missing_override macEnv candidatesFS
    (NewFM24Tool candidatesConfig) "/nowhere" (by decide) rfl⟩

/-! ## Pattern scan -/

theorem utf8Go_ge_length (cs : List Char) : cs.length ≤ String.utf8ByteSize.go cs := by
  induction cs with
  | nil => simp [String.utf8ByteSize.go]
  | cons c rest ih =>
    simp only [String.utf8ByteSize.go, List.length_cons]
    have := Char.utf8Size_pos c
    omega

theorem utf8ByteSize_ge_length (s : String) : s.toList.length ≤ s.utf8ByteSize := by
  cases s with
  | mk cs => exact utf8Go_ge_length cs

theorem japanName_eq (name : String) :
    japanName name = japanChars.isPrefixOf name.toList := by
  unfold japanName
  by_cases h : name.toList.take 5 = japanChars
  · have hlen : 5 ≤ name.toList.length := by
      have h1 := congrArg List.length h
      rw [List.length_take] at h1
      have h2 : japanChars.length = 5 := rfl
      omega
    have hb : 5 ≤ name.utf8ByteSize := le_trans hlen (utf8ByteSize_ge_length name)
    have hp : japanChars.isPrefixOf name.toList = true := by
      rw [List.isPrefixOf_iff_prefix, List.prefix_iff_eq_take]
      exact h.symm
    rw [hp, decide_eq_true hb, Bool.true_and, h]
    rfl
  · have hp : japanChars.isPrefixOf name.toList = false := by
      rw [Bool.eq_false_iff]
      intro hc
      rw [List.isPrefixOf_iff_prefix, List.prefix_iff_eq_take] at hc
      exact h hc.symm
    rw [hp]
    have : (name.toList.take 5 == ['j', 'a', 'p', 'a', 'n']) = false := by
      rw [Bool.eq_false_iff]
      intro hc
      exact h (by simpa [japanChars] using hc)
    rw [this, Bool.and_false]

theorem collectJapan_eq (japanDir : Path) (entries : List DirEntry) :
    collectJapan japanDir entries =
      (entries.filter (fun e => !e.isDir && japanChars.isPrefixOf e.name.toList)).map
        (fun e => joinPath japanDir e.name) := by
  induction entries with
  | nil => rfl
  | cons e rest ih =>
    unfold collectJapan
    rw [ih, japanName_eq]
    by_cases h : (!e.isDir && japanChars.isPrefixOf e.name.toList) = true
    · rw [if_pos h, List.filter_cons, if_pos h, List.map_cons]
    · rw [if_neg h, List.filter_cons, if_neg h]

/-- When `os.IsNotExist` holds of the error of `os.Stat`: nothing stands at the
location and no regular file stands above it. -/
theorem IsNotExist_statError (s : FS) (p : Path) :
    IsNotExist (statError s p) = true ↔ stat s p = none ∧ fileAbove s p = false := by
  unfold statError
  cases hs : stat s p with
  | some d => simp [IsNotExist]
  | none =>
    unfold lookupError
    cases hf : fileAbove s p <;> simp [IsNotExist]

/-- A listing that can be read is the listing of a location that `os.Stat`
finds. -/
theorem IsNotExist_of_readDir (s : FS) (p : Path) (entries : List DirEntry)
    (h : readDir s p = .ok entries) : IsNotExist (statError s p) = false := by
  cases hn : IsNotExist (statError s p) with
  | false => rfl
  | true =>
    have hs := ((IsNotExist_statError s p).mp hn).1
    unfold readDir at h
    rw [hs] at h
    cases h

/-- The files that `findJapanFiles` returns, from the outcome of `os.ReadDir`. -/
theorem findJapanFiles_fst (t : FM24Tool) (s : FS) :
    (findJapanFiles t s).1 =
      match readDir s (joinPath (pathOf t.DBBasePath) "dbc/permanent") with
      | .ok entries => collectJapan (joinPath (pathOf t.DBBasePath) "dbc/permanent") entries
      | .error _ => [] := by
  unfold findJapanFiles
  dsimp only
  cases hrd : readDir s (joinPath (pathOf t.DBBasePath) "dbc/permanent") with
  | ok entries =>
    rw [IsNotExist_of_readDir s _ entries hrd]
    rfl
  | error err =>
    cases hn : IsNotExist (statError s (joinPath (pathOf t.DBBasePath) "dbc/permanent")) <;> rfl

/-- Claim C8, as amended. `findJapanFiles` returns, in listing order, the full
paths of exactly the entries of `DBBasePath/dbc/permanent` that are not
directories and whose name begins with the five characters `japan`. When
`os.Stat` reports that the directory does not exist (nothing stands at the
location and no regular file stands above it) it returns nothing and no error;
when the directory cannot be found or listed for another reason it returns
nothing and the error of `os.ReadDir`, which is ENOTDIR when a regular file
stands above the location. -/
theorem findJapanFiles_selects (t : FM24Tool) (s : FS) :
    (stat s (joinPath (pathOf t.DBBasePath) "dbc/permanent") = none →
      fileAbove s (joinPath (pathOf t.DBBasePath) "dbc/permanent") = false →
      findJapanFiles t s = ([], none)) ∧
    (stat s (joinPath (pathOf t.DBBasePath) "dbc/permanent") = none →
      fileAbove s (joinPath (pathOf t.DBBasePath) "dbc/permanent") = true →
      findJapanFiles t s = ([], some .notDir)) ∧
    (∀ err, IsNotExist (statError s (joinPath (pathOf t.DBBasePath) "dbc/permanent")) = false →
      readDir s (joinPath (pathOf t.DBBasePath) "dbc/permanent") = .error err →
      findJapanFiles t s = ([], some err)) ∧
    (∀ entries, readDir s (joinPath (pathOf t.DBBasePath) "dbc/permanent") = .ok entries →
      findJapanFiles t s =
        ((entries.filter (fun e => !e.isDir && japanChars.isPrefixOf e.name.toList)).map
          (fun e => joinPath (joinPath (pathOf t.DBBasePath) "dbc/permanent") e.name), none)) := by
  refine ⟨?_, ?_, ?_, ?_⟩
  · intro hs hf
    unfold findJapanFiles
    dsimp only
    rw [(IsNotExist_statError s _).mpr ⟨hs, hf⟩]
    rfl
  · intro hs hf
    have hn : IsNotExist (statError s (joinPath (pathOf t.DBBasePath) "dbc/permanent")) =
        false := by
      cases hn : IsNotExist (statError s (joinPath (pathOf t.DBBasePath) "dbc/permanent")) with
      | false => rfl
      | true =>
        have := ((IsNotExist_statError s _).mp hn).2
        rw [hf] at this
        cases this
    have hrd : readDir s (joinPath (pathOf t.DBBasePath) "dbc/permanent") =
        .error .notDir := by
      unfold readDir
      rw [hs]
      unfold lookupError
      rw [hf]
      rfl
    unfold findJapanFiles
    dsimp only
    rw [hn, hrd]
    rfl
  · intro err hn hrd
    unfold findJapanFiles
    dsimp only
    rw [hn, hrd]
    rfl
  · intro entries h
    unfold findJapanFiles
    dsimp only
    rw [IsNotExist_of_readDir s _ entries h, h, ← collectJapan_eq]
    rfl

/-- Claim C8 at the entries `japan_a.dbc`, `other.dbc`, `japanese.txt`, and at
a version folder without `dbc`. -/
theorem findJapanFiles_selects_witness :
    stat demoBase (joinPath (pathOf demoTool.DBBasePath) "dbc/permanent") = none ∧
    fileAbove demoBase (joinPath (pathOf demoTool.DBBasePath) "dbc/permanent") = false ∧
    findJapanFiles demoTool demoBase = ([], none) ∧
    readDir japanFS (joinPath (pathOf demoTool.DBBasePath) "dbc/permanent") =
      .ok [⟨"japan_a.dbc", false, 0o644⟩, ⟨"other.dbc", false, 0o644⟩,
           ⟨"japanese.txt", false, 0o644⟩] ∧
    findJapanFiles demoTool japanFS =
      ([["db", "2400", "dbc", "permanent", "japan_a.dbc"],
        ["db", "2400", "dbc", "permanent", "japanese.txt"]], none) ∧
    findJapanFiles demoTool japanFS =
      (([⟨"japan_a.dbc", false, 0o644⟩, ⟨"other.dbc", false, 0o644⟩,
           (⟨"japanese.txt", false, 0o644⟩ : DirEntry)].filter
          (fun e => !e.isDir && japanChars.isPrefixOf e.name.toList)).map
          (fun e => joinPath (joinPath (pathOf demoTool.DBBasePath) "dbc/permanent") e.name),
        none) :=
  ⟨rfl, rfl, (findJapanFiles_selects demoTool demoBase).1 rfl rfl,
    rfl, rfl, (findJapanFiles_selects demoTool japanFS).2.2.2 _ rfl⟩

/-- Claim C8 as stated fails: the entry `japan_old` begins with `japan` but is
a directory, and `findJapanFiles` does not return it; and where `dbc` is a
regular file, `dbc/permanent` does not exist but `findJapanFiles` returns the
error ENOTDIR. -/
theorem findJapanFiles_directory_counterexample :
    stat dbcFileFS (joinPath (pathOf demoTool.DBBasePath) "dbc/permanent") = none ∧
    stat dbcFileFS ["db", "2400", "dbc"] = some (newFile ["db", "2400", "dbc"] "x") ∧
    findJapanFiles demoTool dbcFileFS = ([], some .notDir) ∧
    readDir japanDirFS (joinPath (pathOf demoTool.DBBasePath) "dbc/permanent") =
      .ok [⟨"japan_a.dbc", false, 0o644⟩, ⟨"other.dbc", false, 0o644⟩,
           ⟨"japanese.txt", false, 0o644⟩, ⟨"japan_old", true, 0o755⟩] ∧
    japanChars.isPrefixOf "japan_old".toList = true ∧
    findJapanFiles demoTool japanDirFS =
      ([["db", "2400", "dbc", "permanent", "japan_a.dbc"],
        ["db", "2400", "dbc", "permanent", "japanese.txt"]], none) :=
  ⟨rfl, rfl, rfl, rfl, rfl, rfl⟩

/-! ## Backup before remove -/

theorem Paired.append {a b : List Event} (ha : Paired a) (hb : Paired b) : Paired (a ++ b) := by
  induction ha with
  | nil => exact hb
  | cons p b r tr _ ih => exact Paired.cons p b r _ ih

theorem Paired.remove_preceded {tr : List Event} (h : Paired tr) :
    ∀ i p ok, tr[i]? = some (.remove p ok) →
      ∃ j b, i = j + 1 ∧ tr[j]? = some (.backup p b) := by
  induction h with
  | nil => intro i p ok hi; simp at hi
  | cons q b r tr _ ih =>
    intro i p ok hi
    match i with
    | 0 => simp at hi
    | 1 =>
      simp at hi
      exact ⟨0, b, rfl, by simp [hi.1]⟩
    | (k + 2) =>
      simp at hi
      obtain ⟨j, b', hj, hb⟩ := ih k p ok hi
      exact ⟨j + 2, b', by omega, by simpa using hb⟩

theorem Paired.backup_followed {tr : List Event} (h : Paired tr) :
    ∀ j p b, tr[j]? = some (.backup p b) → ∃ ok, tr[j + 1]? = some (.remove p ok) := by
  induction h with
  | nil => intro i p ok hi; simp at hi
  | cons q b r tr _ ih =>
    intro j p b' hj
    match j with
    | 0 =>
      simp at hj
      exact ⟨r, by simp [hj.1]⟩
    | 1 => simp at hj
    | (k + 2) =>
      simp at hj
      obtain ⟨ok, hok⟩ := ih k p b' hj
      exact ⟨ok, by simpa using hok⟩

theorem deleteEntries_paired (t : FM24Tool) (dirPath : Path) (s : FS) (entries : List DirEntry) :
    Paired (deleteEntries t dirPath s entries).trace := by
  induction entries generalizing s with
  | nil => exact Paired.nil
  | cons e rest ih =>
    rw [deleteEntries]
    dsimp only
    apply Paired.cons
    apply ih

theorem deleteDirectoryContents_paired (t : FM24Tool) (s : FS) (dirPath : Path) :
    Paired (deleteDirectoryContents t s dirPath).1.trace := by
  unfold deleteDirectoryContents
  split
  · exact Paired.nil
  · exact deleteEntries_paired t dirPath s _

theorem processTarget_paired (t : FM24Tool) (s : FS) (target : TargetFile) :
    Paired (processTarget t s target).trace := by
  unfold processTarget
  simp only
  split
  · split
    · split
      · exact deleteDirectoryContents_paired t s _
      · exact Paired.nil
    · exact Paired.nil
  · split
    · exact Paired.cons _ _ _ _ Paired.nil
    · exact Paired.nil

theorem processTargets_paired (t : FM24Tool) (r : Run) (l : List TargetFile)
    (h : Paired r.trace) : Paired (processTargets t r l).trace := by
  induction l generalizing r with
  | nil => exact h
  | cons target rest ih =>
    rw [processTargets]
    apply ih
    exact h.append (processTarget_paired t r.fs target)

theorem processJapan_paired (t : FM24Tool) (r : Run) (l : List Path)
    (h : Paired r.trace) : Paired (processJapan t r l).trace := by
  induction l generalizing r with
  | nil => exact h
  | cons jp rest ih =>
    rw [processJapan]
    apply ih
    exact h.append (Paired.cons _ _ _ _ Paired.nil)

theorem executeRealNameProcess_paired (t : FM24Tool) (s : FS) :
    Paired (executeRealNameProcess t s).1.trace := by
  unfold executeRealNameProcess
  exact processJapan_paired t _ _ (processTargets_paired t _ _ Paired.nil)

/-- Claim C4. In the calls made by `executeRealNameProcess`, and in those made
by `deleteDirectoryContents`, every remove of a path comes right after a call
of `backupFile` on the same path, and every call of `backupFile` is followed
by the remove of its path, whatever the backup returned. -/
theorem remove_preceded_by_backup (t : FM24Tool) (s : FS) :
    (∀ i p ok, (executeRealNameProcess t s).1.trace[i]? = some (.remove p ok) →
      ∃ j b, i = j + 1 ∧ (executeRealNameProcess t s).1.trace[j]? = some (.backup p b)) ∧
    (∀ j p b, (executeRealNameProcess t s).1.trace[j]? = some (.backup p b) →
      ∃ ok, (executeRealNameProcess t s).1.trace[j + 1]? = some (.remove p ok)) ∧
    (∀ dirPath i p ok, (deleteDirectoryContents t s dirPath).1.trace[i]? = some (.remove p ok) →
      ∃ j b, i = j + 1 ∧
        (deleteDirectoryContents t s dirPath).1.trace[j]? = some (.backup p b)) ∧
    (∀ dirPath j p b, (deleteDirectoryContents t s dirPath).1.trace[j]? = some (.backup p b) →
      ∃ ok, (deleteDirectoryContents t s dirPath).1.trace[j + 1]? = some (.remove p ok)) :=
  ⟨(executeRealNameProcess_paired t s).remove_preceded,
   (executeRealNameProcess_paired t s).backup_followed,
   fun d => (deleteDirectoryContents_paired t s d).remove_preceded,
   fun d => (deleteDirectoryContents_paired t s d).backup_followed⟩

/-! ## A run over absent targets -/

theorem processTarget_absent (t : FM24Tool) (s : FS) (target : TargetFile)
    (h : stat s (joinPath (pathOf t.DBBasePath) target.Path) = none) :
    processTarget t s target = ⟨s, [], 0⟩ := by
  unfold processTarget
  simp [h]

theorem processTargets_absent (t : FM24Tool) (r : Run) (l : List TargetFile)
    (h : ∀ target ∈ l, stat r.fs (joinPath (pathOf t.DBBasePath) target.Path) = none) :
    processTargets t r l = ⟨r.fs, r.trace, r.totalFiles + l.length, r.deletedCount⟩ := by
  induction l generalizing r with
  | nil => rfl
  | cons target rest ih =>
    unfold processTargets
    rw [processTarget_absent t r.fs target (h target (List.mem_cons_self _ _))]
    rw [ih ⟨r.fs, r.trace ++ [], r.totalFiles + 1, r.deletedCount + 0⟩
      (fun x hx => h x (List.mem_cons_of_mem _ hx))]
    simp only [List.append_nil, List.length_cons, Nat.add_zero, Run.mk.injEq, true_and, and_true]
    omega

/-- Claim C6. When every manifest target is absent under `DBBasePath` and the
pattern scan finds nothing, `executeRealNameProcess` returns a nil error,
`deletedCount = 0` and `totalFiles = len(TargetFiles)`, which is 10 for the
built-in manifest; it makes no backup and no remove call and leaves the
filesystem as it was. -/
theorem executeRealNameProcess_all_absent (t : FM24Tool) (s : FS)
    (habsent : ∀ target ∈ t.TargetFiles,
      stat s (joinPath (pathOf t.DBBasePath) target.Path) = none)
    (hscan : (findJapanFiles t s).1 = []) :
    executeRealNameProcess t s = (⟨s, [], t.TargetFiles.length, 0⟩, none) ∧
    (∀ config, t.TargetFiles = (NewFM24Tool config).TargetFiles →
      (executeRealNameProcess t s).1.totalFiles = 10) := by
  have h1 : executeRealNameProcess t s = (⟨s, [], t.TargetFiles.length, 0⟩, none) := by
    unfold executeRealNameProcess
    rw [processTargets_absent t ⟨s, [], 0, 0⟩ _ habsent]
    simp only [hscan, processJapan, Nat.zero_add]
  refine ⟨h1, ?_⟩
  intro config hc
  rw [h1, hc]
  rfl

/-- Claim C6 at an empty version folder. -/
theorem executeRealNameProcess_all_absent_witness :
    (∀ target ∈ demoTool.TargetFiles,
      stat demoBase (joinPath (pathOf demoTool.DBBasePath) target.Path) = none) ∧
    (findJapanFiles demoTool demoBase).1 = [] ∧
    executeRealNameProcess demoTool demoBase =
      (⟨demoBase, [], demoTool.TargetFiles.length, 0⟩, none) ∧
    (∀ config, demoTool.TargetFiles = (NewFM24Tool config).TargetFiles →
      (executeRealNameProcess demoTool demoBase).1.totalFiles = 10) :=
  have h1 : ∀ target ∈ demoTool.TargetFiles,
      stat demoBase (joinPath (pathOf demoTool.DBBasePath) target.Path) = none := by decide
  have h2 : (findJapanFiles demoTool demoBase).1 = [] := rfl
  ⟨h1, h2, executeRealNameProcess_all_absent demoTool demoBase h1 h2⟩

/-! ## Backup of a directory -/

/-- Claim C5 at the failing input: the directory `lnc/all/sub` holds two
regular files and nothing is denied; `backupFile` and `os.RemoveAll` both
return nil, after which the backup directory holds one file only, the one of
the nested directory: `a.txt`, a direct child, was not copied, and nothing of
the directory is left under `DBBasePath`. -/
theorem backupFile_loses_direct_children :
    (filesUnder lostFS ["db", "2400", "lnc", "all", "sub"]).length = 2 ∧
    (backupFile demoTool lostFS ["db", "2400", "lnc", "all", "sub"]).2 = none ∧
    (removeAll (backupFile demoTool lostFS ["db", "2400", "lnc", "all", "sub"]).1
      ["db", "2400", "lnc", "all", "sub"]).2 = none ∧
    filesUnder (backupThenRemove demoTool lostFS ["db", "2400", "lnc", "all", "sub"])
        (pathOf demoTool.BackupDir) =
      [newFile ["bak", "ts", "lnc", "all", "sub", "inner", "b.txt"] "B"] ∧
    stat (backupThenRemove demoTool lostFS ["db", "2400", "lnc", "all", "sub"])
      ["bak", "ts", "lnc", "all", "sub", "a.txt"] = none ∧
    filesUnder (backupThenRemove demoTool lostFS ["db", "2400", "lnc", "all", "sub"])
      (pathOf demoTool.DBBasePath) = [] :=
  ⟨rfl, rfl, rfl, rfl, rfl, rfl⟩

/-! ## A second run -/

theorem splitOnChar_of_not_mem (sep : Char) (cs : List Char) (h : sep ∉ cs) :
    splitOnChar sep cs = [cs] := by
  induction cs with
  | nil => rfl
  | cons c rest ih =>
    have hc : c ≠ sep := fun e => h (e ▸ List.mem_cons_self _ _)
    have hr : sep ∉ rest := fun e => h (List.mem_cons_of_mem _ e)
    rw [splitOnChar, if_neg hc, ih hr]

theorem splitComps_plain (n : String) (h : '/' ∉ n.toList) : splitComps n = [n] := by
  unfold splitComps
  rw [splitOnChar_of_not_mem _ _ h]
  rfl

theorem cleanStep_okComp (r : Bool) (acc : List String) (c : String) (h : okComp c) :
    cleanStep r acc c = c :: acc := by
  unfold cleanStep
  obtain ⟨h1, h2, h3⟩ := h
  simp [h1, h2, h3]

theorem cleanStep_cases (acc : List String) (c : String) (h : c ≠ "..") :
    cleanStep true acc c = acc ∨ (cleanStep true acc c = c :: acc ∧ okComp c) := by
  unfold cleanStep
  by_cases h1 : c = "" ∨ c = "."
  · left; rw [if_pos h1]
  · right
    rw [if_neg h1, if_neg h]
    exact ⟨rfl, fun e => h1 (Or.inl e), fun e => h1 (Or.inr e), h⟩

theorem foldl_cleanStep_okComp (cs acc : List String) (h : ∀ c ∈ cs, okComp c) :
    cs.foldl (cleanStep true) acc = cs.reverse ++ acc := by
  induction cs generalizing acc with
  | nil => rfl
  | cons c rest ih =>
    rw [List.foldl_cons, cleanStep_okComp _ _ _ (h c (List.mem_cons_self _ _)),
      ih _ (fun x hx => h x (List.mem_cons_of_mem _ hx))]
    simp

theorem foldl_cleanStep_ext (cs acc : List String) (h : ∀ c ∈ cs, c ≠ "..") :
    ∃ l : List String, cs.foldl (cleanStep true) acc = l.reverse ++ acc ∧
      ∀ c ∈ l, okComp c := by
  induction cs generalizing acc with
  | nil => exact ⟨[], rfl, fun c hc => absurd hc (List.not_mem_nil c)⟩
  | cons c rest ih =>
    rw [List.foldl_cons]
    have hr : ∀ x ∈ rest, x ≠ ".." := fun x hx => h x (List.mem_cons_of_mem _ hx)
    rcases cleanStep_cases acc c (h c (List.mem_cons_self _ _)) with hc | ⟨hc, hok⟩
    · rw [hc]; exact ih acc hr
    · rw [hc]
      obtain ⟨l, hl, hlok⟩ := ih (c :: acc) hr
      refine ⟨c :: l, ?_, ?_⟩
      · rw [hl]; simp
      · intro x hx
        rcases List.mem_cons.mp hx with hx | hx
        · rw [hx]; exact hok
        · exact hlok x hx

theorem joinComps_okComp (a : Path) (cs : List String) (h : ∀ c ∈ cs, okComp c) :
    joinComps a cs = a ++ cs := by
  unfold joinComps
  rw [foldl_cleanStep_okComp cs _ h]
  simp

theorem joinPath_ext (a : Path) (p : String) (h : ".." ∉ splitComps p) :
    ∃ l : List String, joinPath a p = a ++ l ∧ ∀ c ∈ l, okComp c := by
  unfold joinPath joinComps
  obtain ⟨l, hl, hok⟩ := foldl_cleanStep_ext (splitComps p) a.reverse
    (fun c hc e => h (e ▸ hc))
  exact ⟨l, by rw [hl]; simp, hok⟩

theorem joinPath_name (a : Path) (n : String) (h : plainName n) : joinPath a n = a ++ [n] := by
  unfold joinPath
  rw [splitComps_plain n h.2]
  exact joinComps_okComp a [n] (fun c hc => by rw [List.mem_singleton.mp hc]; exact h.1)

theorem commonLen_append (base l : Path) : commonLen base (base ++ l) = base.length := by
  induction base with
  | nil => cases l <;> rfl
  | cons b rest ih =>
    rw [List.cons_append, commonLen, if_pos rfl, ih, List.length_cons]

theorem filepathRel_append (base l : Path) (hl : l ≠ []) : filepathRel base (base ++ l) = l := by
  unfold filepathRel
  simp only [commonLen_append, Nat.sub_self, List.replicate_zero, List.nil_append,
    List.drop_left]
  cases l with
  | nil => exact absurd rfl hl
  | cons c rest => rfl

theorem filepathRel_self (base : Path) : filepathRel base base = ["."] := by
  have h := commonLen_append base []
  rw [List.append_nil] at h
  unfold filepathRel
  simp [h]

/-- The destination of a backup lies at or below the backup directory. -/
theorem backup_dst (base bdir l : Path) (hl : ∀ c ∈ l, okComp c) :
    joinComps bdir (filepathRel base (base ++ l)) = bdir ++ l := by
  by_cases h : l = []
  · subst h
    rw [List.append_nil, filepathRel_self, List.append_nil]
    unfold joinComps
    simp [cleanStep]
  · rw [filepathRel_append base l h, joinComps_okComp bdir l hl]

theorem not_under_of_apart {base bdir : Path} (h : Apart base bdir) (l : Path) :
    ¬ base <+: bdir ++ l := by
  intro hb
  rcases List.prefix_or_prefix_of_prefix hb (List.prefix_append bdir l) with h1 | h1
  · exact h.1 h1
  · exact h.2 h1

theorem not_under_dropLast {base w : Path} (h : ¬ base <+: w) : ¬ base <+: w.dropLast := by
  intro hb
  exact h (hb.trans (List.dropLast_prefix w))

/-! ### What lies under the base is not written by a backup -/

theorem treeUnder_append_outside (base : Path) (s : FS) (e : Entry) (h : ¬ base <+: e.path) :
    treeUnder base (s ++ [e]) = treeUnder base s := by
  unfold treeUnder
  rw [List.filter_append]
  have : base.isPrefixOf e.path = false := by
    rw [Bool.eq_false_iff]
    intro hc
    exact h (List.isPrefixOf_iff_prefix.mp hc)
  simp [List.filter_cons, this]

theorem mkdirAllRev_frame (base : Path) (mode : Nat) (s : FS) (rp : List String)
    (h : ¬ base <+: rp.reverse) :
    treeUnder base (mkdirAllRev mode s rp).1 = treeUnder base s := by
  induction rp with
  | nil =>
    unfold mkdirAllRev
    split
    · rfl
    · exact treeUnder_append_outside base s _ h
  | cons n up ih =>
    have hup : ¬ base <+: up.reverse := by
      intro hb
      apply h
      rw [List.reverse_cons]
      exact hb.trans (List.prefix_append _ _)
    unfold mkdirAllRev
    split
    · rfl
    · split
      · rename_i s1 heq
        have h1 : treeUnder base s1 = treeUnder base s := by
          have := ih hup
          rw [heq] at this
          exact this
        show treeUnder base (s1 ++ [newDir (n :: up).reverse mode]) = treeUnder base s
        rw [treeUnder_append_outside base s1 _ h, h1]
      · rename_i s1 err heq
        have := ih hup
        rw [heq] at this
        exact this

theorem mkdirAll_frame (base : Path) (s : FS) (p : Path) (mode : Nat) (h : ¬ base <+: p) :
    treeUnder base (mkdirAll s p mode).1 = treeUnder base s := by
  unfold mkdirAll
  apply mkdirAllRev_frame
  rw [List.reverse_reverse]
  exact h

theorem treeUnder_map_outside (base p : Path) (f : Entry → Entry) (s : FS)
    (hp : ¬ base <+: p) (hpath : ∀ e, (f e).path = e.path) :
    treeUnder base (s.map (fun e => if e.path = p then f e else e)) = treeUnder base s := by
  unfold treeUnder
  induction s with
  | nil => rfl
  | cons a rest ih =>
    rw [List.map_cons, List.filter_cons, List.filter_cons, ih]
    by_cases ha : a.path = p
    · have h1 : base.isPrefixOf a.path = false := by
        rw [Bool.eq_false_iff]
        intro hc
        exact hp (ha ▸ List.isPrefixOf_iff_prefix.mp hc)
      rw [if_pos ha, hpath, h1]
      simp
    · rw [if_neg ha]

theorem writeFile_frame (base : Path) (s : FS) (p : Path) (data : String) (mode : Nat)
    (h : ¬ base <+: p) :
    treeUnder base (writeFile s p data mode).1 = treeUnder base s := by
  unfold writeFile
  split
  · rfl
  · split
    · rfl
    · split
      · rfl
      · split
        · split
          · rfl
          · exact treeUnder_map_outside base p (fun e => { e with data := data }) s h
              (fun _ => rfl)
        · exact treeUnder_append_outside base s _ h

theorem childOf_some {q : Path} {e : Entry} {c : DirEntry} (h : childOf q e = some c) :
    e.path = q ++ [c.name] ∧ c.isDir = e.isDir ∧ c.mode = e.mode := by
  unfold childOf at h
  split at h
  · rename_i n hn
    split at h
    · rename_i hq
      cases h
      refine ⟨?_, rfl, rfl⟩
      have hne : e.path ≠ [] := by
        intro e0
        rw [e0] at hn
        cases hn
      have hlast : e.path.getLast hne = n := by
        rw [List.getLast?_eq_getLast _ hne] at hn
        exact Option.some.inj hn
      rw [← hq, ← hlast]
      exact (List.dropLast_append_getLast hne).symm
    · cases h
  · cases h

theorem childOf_append (q : Path) (e : Entry) (n : String) (h : e.path = q ++ [n]) :
    childOf q e = some ⟨n, e.isDir, e.mode⟩ := by
  unfold childOf
  rw [h]
  simp

theorem readDir_ok_mem {s : FS} {q : Path} {entries : List DirEntry}
    (h : readDir s q = .ok entries) {c : DirEntry} (hc : c ∈ entries) :
    ∃ e ∈ s, childOf q e = some c := by
  unfold readDir at h
  split at h
  · cases h
  · split at h
    · cases h
    · split at h
      · cases h
      · cases h
        obtain ⟨e, he, hce⟩ := List.mem_filterMap.mp hc
        exact ⟨e, he, hce⟩

theorem readDir_names_plain (base : Path) {s : FS} {q : Path} {entries : List DirEntry}
    (hq : base <+: q) (hwn : WellNamed (treeUnder base s))
    (h : readDir s q = .ok entries) : ∀ c ∈ entries, plainName c.name := by
  intro c hc
  obtain ⟨e, he, hce⟩ := readDir_ok_mem h hc
  have hp := (childOf_some hce).1
  have hu : e ∈ treeUnder base s := by
    unfold treeUnder
    rw [List.mem_filter]
    refine ⟨he, ?_⟩
    rw [List.isPrefixOf_iff_prefix, hp]
    exact hq.trans (List.prefix_append _ _)
  apply hwn e hu
  rw [hp]
  simp

theorem backupEntries_frame (base bdir : Path) (hapart : Apart base bdir)
    (recur : FS → Path → Path → FS × Option Err)
    (hrec : ∀ s src dst, base <+: src → bdir <+: dst → WellNamed (treeUnder base s) →
      treeUnder base (recur s src dst).1 = treeUnder base s)
    (srcDir dstDir : Path) (hsrc : base <+: srcDir) (hdst : bdir <+: dstDir)
    (es : List DirEntry) (s : FS) (hes : ∀ e ∈ es, plainName e.name)
    (hwn : WellNamed (treeUnder base s)) :
    treeUnder base (backupEntries recur srcDir dstDir s es).1 = treeUnder base s := by
  induction es generalizing s with
  | nil => rfl
  | cons e rest ih =>
    have hname := hes e (List.mem_cons_self _ _)
    have hrest : ∀ x ∈ rest, plainName x.name := fun x hx => hes x (List.mem_cons_of_mem _ hx)
    have hsp : joinPath srcDir e.name = srcDir ++ [e.name] := joinPath_name _ _ hname
    have hdp : joinPath dstDir e.name = dstDir ++ [e.name] := joinPath_name _ _ hname
    have hsu : base <+: srcDir ++ [e.name] := hsrc.trans (List.prefix_append _ _)
    have hdu : bdir <+: dstDir ++ [e.name] := hdst.trans (List.prefix_append _ _)
    have hout : ¬ base <+: dstDir ++ [e.name] := by
      obtain ⟨l, hl⟩ := hdu
      rw [← hl]
      exact not_under_of_apart hapart l
    rw [backupEntries, hsp, hdp]
    dsimp only
    split
    · have h1 := mkdirAll_frame base s (dstDir ++ [e.name]) 0o755 hout
      have hwn1 : WellNamed (treeUnder base (mkdirAll s (dstDir ++ [e.name]) 0o755).1) := by
        rw [h1]; exact hwn
      have h2 := hrec _ _ _ hsu hdu hwn1
      split
      · rename_i s2 err heq
        rw [heq] at h2
        show treeUnder base s2 = treeUnder base s
        rw [h2, h1]
      · rename_i s2 heq
        rw [heq] at h2
        have h3 : treeUnder base s2 = treeUnder base s := by rw [h2, h1]
        rw [ih s2 hrest (by rw [h3]; exact hwn), h3]
    · split
      · exact ih s hrest hwn
      · have h1 := writeFile_frame base s (dstDir ++ [e.name]) ‹String› e.mode hout
        rw [ih _ hrest (by rw [h1]; exact hwn), h1]

theorem backupDirectory_frame (base bdir : Path) (hapart : Apart base bdir) (depth : Nat) :
    ∀ s src dst, base <+: src → bdir <+: dst → WellNamed (treeUnder base s) →
      treeUnder base (backupDirectory depth s src dst).1 = treeUnder base s := by
  induction depth with
  | zero => intro s src dst _ _ _; rfl
  | succ d ih =>
    intro s src dst hsrc hdst hwn
    rw [backupDirectory]
    split
    · rfl
    · rename_i entries hread
      exact backupEntries_frame base bdir hapart _ ih src dst hsrc hdst entries s
        (readDir_names_plain base hsrc hwn hread) hwn

theorem backupFile_frame (t : FM24Tool) (s : FS) (l : Path)
    (hapart : Apart (pathOf t.DBBasePath) (pathOf t.BackupDir))
    (hl : ∀ c ∈ l, okComp c) (hwn : WellNamed (treeUnder (pathOf t.DBBasePath) s)) :
    treeUnder (pathOf t.DBBasePath) (backupFile t s (pathOf t.DBBasePath ++ l)).1 =
      treeUnder (pathOf t.DBBasePath) s := by
  have hout : ¬ pathOf t.DBBasePath <+: pathOf t.BackupDir ++ l := not_under_of_apart hapart l
  have hmk := mkdirAll_frame (pathOf t.DBBasePath) s (pathOf t.BackupDir ++ l).dropLast 0o755
    (not_under_dropLast hout)
  unfold backupFile
  simp only [backup_dst _ _ _ hl, filepathDir]
  split
  · rename_i s1 err heq
    rw [heq] at hmk
    exact hmk
  · rename_i s1 heq
    rw [heq] at hmk
    split
    · exact hmk
    · split
      · rw [backupDirectory_frame _ _ hapart _ s1 _ _ (List.prefix_append _ _)
          (List.prefix_append _ _) (by rw [hmk]; exact hwn), hmk]
      · split
        · exact hmk
        · rw [writeFile_frame _ s1 _ _ _ hout, hmk]

/-! ### How the part under the base changes -/

theorem mem_treeUnder {base : Path} {s : FS} {e : Entry} :
    e ∈ treeUnder base s ↔ e ∈ s ∧ base <+: e.path := by
  unfold treeUnder
  rw [List.mem_filter, List.isPrefixOf_iff_prefix]

theorem Evolves.refl (base : Path) (s : FS) : Evolves base s s :=
  ⟨fun _ => true, by simp⟩

theorem Evolves.trans {base : Path} {s1 s2 s3 : FS} (h12 : Evolves base s1 s2)
    (h23 : Evolves base s2 s3) : Evolves base s1 s3 := by
  obtain ⟨k1, h1⟩ := h12
  obtain ⟨k2, h2⟩ := h23
  refine ⟨fun q => k1 q && k2 q, ?_⟩
  rw [h2, h1, List.filter_filter]
  congr 1
  funext e
  exact Bool.and_comm _ _

theorem Evolves.of_frame {base : Path} {s s' : FS} (h : treeUnder base s' = treeUnder base s) :
    Evolves base s s' :=
  ⟨fun _ => true, by rw [h]; simp⟩

theorem Evolves.of_filter (base : Path) (s : FS) (g : Path → Bool) :
    Evolves base s (s.filter (fun e => g e.path)) := by
  refine ⟨g, ?_⟩
  unfold treeUnder
  rw [List.filter_filter, List.filter_filter]
  congr 1
  funext e
  exact Bool.and_comm _ _

theorem Evolves.mem {base : Path} {s s' : FS} (h : Evolves base s s') {e : Entry}
    (he : e ∈ treeUnder base s') : e ∈ treeUnder base s := by
  obtain ⟨k, hk⟩ := h
  rw [hk] at he
  exact (List.mem_filter.mp he).1

theorem Evolves.wellNamed {base : Path} {s s' : FS} (h : Evolves base s s')
    (hwn : WellNamed (treeUnder base s)) : WellNamed (treeUnder base s') :=
  fun e he => hwn e (h.mem he)

theorem WellNamed.under {s : FS} (h : WellNamed s) (base : Path) :
    WellNamed (treeUnder base s) :=
  fun e he => h e (mem_treeUnder.mp he).1

theorem stat_treeUnder (base : Path) (s : FS) (q : Path) (hq : base <+: q) :
    stat (treeUnder base s) q = stat s q := by
  unfold stat treeUnder
  induction s with
  | nil => rfl
  | cons a rest ih =>
    rw [List.filter_cons]
    by_cases ha : a.path = q
    · have : base.isPrefixOf a.path = true := by
        rw [List.isPrefixOf_iff_prefix, ha]; exact hq
      rw [if_pos this, List.find?_cons, List.find?_cons]
      simp [ha]
    · by_cases hb : base.isPrefixOf a.path = true
      · rw [if_pos hb, List.find?_cons, List.find?_cons]
        simp [ha, ih]
      · rw [if_neg hb, List.find?_cons]
        simp [ha, ih]

theorem find_filter_path (l : FS) (keep : Path → Bool) (q : Path) :
    (l.filter (fun e => keep e.path)).find? (fun e => e.path = q) =
      if keep q = true then l.find? (fun e => e.path = q) else none := by
  induction l with
  | nil => simp
  | cons a rest ih =>
    rw [List.filter_cons]
    by_cases ha : a.path = q
    · by_cases hk : keep q = true
      · have hka : keep a.path = true := by rw [ha]; exact hk
        rw [if_pos hka, if_pos hk, List.find?_cons, List.find?_cons]
        simp [ha]
      · have hka : ¬ keep a.path = true := by rw [ha]; exact hk
        rw [if_neg hka, if_neg hk, ih, if_neg hk]
    · by_cases hka : keep a.path = true
      · rw [if_pos hka, List.find?_cons, ih, List.find?_cons]
        simp [ha]
      · rw [if_neg hka, ih, List.find?_cons]
        simp [ha]

theorem Evolves.stat_or {base : Path} {s s' : FS} (h : Evolves base s s') (q : Path)
    (hq : base <+: q) : stat s' q = none ∨ stat s' q = stat s q := by
  obtain ⟨k, hk⟩ := h
  rw [← stat_treeUnder base s' q hq, ← stat_treeUnder base s q hq, hk]
  unfold FM24.stat
  rw [find_filter_path]
  by_cases hkq : k q = true
  · right; rw [if_pos hkq]
  · left; rw [if_neg hkq]

theorem children_treeUnder (base : Path) (s : FS) (q : Path) (hq : base <+: q) :
    (treeUnder base s).filterMap (childOf q) = s.filterMap (childOf q) := by
  unfold treeUnder
  induction s with
  | nil => rfl
  | cons a rest ih =>
    rw [List.filter_cons]
    by_cases hb : base.isPrefixOf a.path = true
    · rw [if_pos hb, List.filterMap_cons, List.filterMap_cons, ih]
    · rw [if_neg hb, ih, List.filterMap_cons]
      cases hc : childOf q a with
      | none => rfl
      | some c =>
        exfalso
        apply hb
        rw [List.isPrefixOf_iff_prefix, (childOf_some hc).1]
        exact hq.trans (List.prefix_append _ _)

theorem Evolves.children {base : Path} {s s' : FS} (h : Evolves base s s') (q : Path)
    (hq : base <+: q) {c : DirEntry} (hc : c ∈ s'.filterMap (childOf q)) :
    c ∈ s.filterMap (childOf q) := by
  rw [← children_treeUnder base s' q hq] at hc
  rw [← children_treeUnder base s q hq]
  obtain ⟨e, he, hce⟩ := List.mem_filterMap.mp hc
  exact List.mem_filterMap.mpr ⟨e, h.mem he, hce⟩

theorem stat_ne_none_of_mem {s : FS} {e : Entry} (he : e ∈ s) : stat s e.path ≠ none := by
  unfold stat
  intro h
  have := List.find?_eq_none.mp h e he
  simp at this

theorem readDir_ok_iff (s : FS) (q : Path) (l : List DirEntry) :
    readDir s q = .ok l ↔
      ∃ d, stat s q = some d ∧ d.isDir = true ∧ d.readable = true ∧
        l = s.filterMap (childOf q) := by
  constructor
  · intro h
    unfold readDir at h
    split at h
    · cases h
    · rename_i d hs
      split at h
      · cases h
      · rename_i hd
        split at h
        · cases h
        · rename_i hr
          cases h
          exact ⟨d, hs, by simpa using hd, by simpa using hr, rfl⟩
  · rintro ⟨d, hs, hd, hr, rfl⟩
    unfold readDir
    rw [hs]
    simp [hd, hr]

/-! ### One backup and remove -/

theorem removeAll_evolves (base : Path) (s : FS) (p : Path) :
    Evolves base s (removeAll s p).1 :=
  Evolves.of_filter base s (fun q => !(p.isPrefixOf q) || blocked s q)

theorem removeAll_ok_stat (s : FS) (p : Path) (h : (removeAll s p).2 = none) :
    stat (removeAll s p).1 p = none := by
  have hb : blocked s p = false := by
    unfold removeAll at h
    cases hb : blocked s p
    · rfl
    · simp [hb] at h
  unfold stat removeAll
  rw [List.find?_eq_none]
  intro x hx
  have hx2 := (List.mem_filter.mp hx).2
  intro hp
  have hp' : x.path = p := by simpa using hp
  have hpp : p.isPrefixOf p = true := List.isPrefixOf_iff_prefix.mpr (List.prefix_refl p)
  rw [hp', hb, hpp] at hx2
  cases hx2

theorem remove_evolves (base : Path) (s : FS) (p : Path) : Evolves base s (remove s p).1 := by
  unfold remove
  split
  · exact Evolves.refl base s
  · split
    · exact Evolves.refl base s
    · split
      · exact Evolves.refl base s
      · exact Evolves.of_filter base s (fun q => !(decide (q = p)))

theorem remove_ok_stat (s : FS) (p : Path) (h : (remove s p).2 = none) :
    stat (remove s p).1 p = none := by
  unfold remove at h ⊢
  split
  · rename_i hs
    rw [hs] at h
    simp at h
  · rename_i e hs
    rw [hs] at h
    simp only at h
    split
    · rename_i hl
      rw [if_pos hl] at h
      simp at h
    · rename_i hl
      rw [if_neg hl] at h
      split
      · rename_i hc
        rw [if_pos hc] at h
        simp at h
      · unfold stat
        rw [List.find?_eq_none]
        intro x hx
        have hx2 := (List.mem_filter.mp hx).2
        simpa using hx2

theorem isNone_true {α : Type} {o : Option α} (h : o.isNone = true) : o = none := by
  cases o with
  | none => rfl
  | some a => cases h

theorem backup_removeAll_step (t : FM24Tool) (s : FS) (l : Path)
    (hapart : Apart (pathOf t.DBBasePath) (pathOf t.BackupDir))
    (hl : ∀ c ∈ l, okComp c) (hwn : WellNamed (treeUnder (pathOf t.DBBasePath) s)) :
    Evolves (pathOf t.DBBasePath) s
      (removeAll (backupFile t s (pathOf t.DBBasePath ++ l)).1 (pathOf t.DBBasePath ++ l)).1 :=
  (Evolves.of_frame (backupFile_frame t s l hapart hl hwn)).trans (removeAll_evolves _ _ _)

theorem backup_remove_step (t : FM24Tool) (s : FS) (l : Path)
    (hapart : Apart (pathOf t.DBBasePath) (pathOf t.BackupDir))
    (hl : ∀ c ∈ l, okComp c) (hwn : WellNamed (treeUnder (pathOf t.DBBasePath) s)) :
    Evolves (pathOf t.DBBasePath) s
      (remove (backupFile t s (pathOf t.DBBasePath ++ l)).1 (pathOf t.DBBasePath ++ l)).1 :=
  (Evolves.of_frame (backupFile_frame t s l hapart hl hwn)).trans (remove_evolves _ _ _)

theorem Evolves.stat_none {base : Path} {s s' : FS} (h : Evolves base s s') (q : Path)
    (hq : base <+: q) (hs : stat s q = none) : stat s' q = none := by
  rcases h.stat_or q hq with h1 | h1
  · exact h1
  · rw [h1, hs]

/-! ### Traces -/

theorem AllRemovesOk.left {a b : List Event} (h : AllRemovesOk (a ++ b)) : AllRemovesOk a :=
  fun ev hm => h ev (List.mem_append_left _ hm)

theorem AllRemovesOk.right {a b : List Event} (h : AllRemovesOk (a ++ b)) : AllRemovesOk b :=
  fun ev hm => h ev (List.mem_append_right _ hm)

theorem AllRemovesOk.second {a : Event} {p : Path} {o : Option Err} {tr : List Event}
    (h : AllRemovesOk (a :: .remove p o.isNone :: tr)) : o = none := by
  have := h _ (List.mem_cons_of_mem _ (List.mem_cons_self _ _))
  cases o with
  | none => rfl
  | some e => cases this

theorem AllRemovesOk.tail2 {a b : Event} {tr : List Event}
    (h : AllRemovesOk (a :: b :: tr)) : AllRemovesOk tr :=
  fun ev hm => h ev (List.mem_cons_of_mem _ (List.mem_cons_of_mem _ hm))

theorem processTargets_trace (t : FM24Tool) (r : Run) (l : List TargetFile) :
    ∃ tr, (processTargets t r l).trace = r.trace ++ tr := by
  induction l generalizing r with
  | nil => exact ⟨[], by simp [processTargets]⟩
  | cons target rest ih =>
    rw [processTargets]
    obtain ⟨tr, htr⟩ := ih ⟨(processTarget t r.fs target).fs,
      r.trace ++ (processTarget t r.fs target).trace, r.totalFiles + 1,
      r.deletedCount + (processTarget t r.fs target).deleted⟩
    exact ⟨_, htr.trans (List.append_assoc _ _ _)⟩

theorem processJapanFile_fs (t : FM24Tool) (r : Run) (jp : Path) :
    (processJapanFile t r jp).fs = (remove (backupFile t r.fs jp).1 jp).1 := rfl

theorem processJapanFile_trace (t : FM24Tool) (r : Run) (jp : Path) :
    (processJapanFile t r jp).trace =
      r.trace ++ [.backup jp (backupFile t r.fs jp).2.isNone,
        .remove jp (remove (backupFile t r.fs jp).1 jp).2.isNone] := rfl

theorem processJapan_trace (t : FM24Tool) (r : Run) (l : List Path) :
    ∃ tr, (processJapan t r l).trace = r.trace ++ tr := by
  induction l generalizing r with
  | nil => exact ⟨[], by simp [processJapan]⟩
  | cons jp rest ih =>
    rw [processJapan]
    obtain ⟨tr, htr⟩ := ih (processJapanFile t r jp)
    rw [processJapanFile_trace] at htr
    exact ⟨_, htr.trans (List.append_assoc _ _ _)⟩

/-! ### The first run settles every target -/

theorem deleteEntries_settles (t : FM24Tool) (l : Path)
    (hapart : Apart (pathOf t.DBBasePath) (pathOf t.BackupDir)) (hl : ∀ c ∈ l, okComp c)
    (es : List DirEntry) (s : FS) (hes : ∀ e ∈ es, plainName e.name)
    (hwn : WellNamed (treeUnder (pathOf t.DBBasePath) s))
    (hok : AllRemovesOk (deleteEntries t (pathOf t.DBBasePath ++ l) s es).trace) :
    Evolves (pathOf t.DBBasePath) s (deleteEntries t (pathOf t.DBBasePath ++ l) s es).fs ∧
    ∀ e ∈ es, stat (deleteEntries t (pathOf t.DBBasePath ++ l) s es).fs
      (pathOf t.DBBasePath ++ l ++ [e.name]) = none := by
  induction es generalizing s with
  | nil => exact ⟨Evolves.refl _ _, fun e he => absurd he (List.not_mem_nil e)⟩
  | cons e rest ih =>
    have hname := hes e (List.mem_cons_self _ _)
    have hrest : ∀ x ∈ rest, plainName x.name := fun x hx => hes x (List.mem_cons_of_mem _ hx)
    have hfull : joinPath (pathOf t.DBBasePath ++ l) e.name =
        pathOf t.DBBasePath ++ (l ++ [e.name]) := by
      rw [joinPath_name _ _ hname, List.append_assoc]
    have hl' : ∀ c ∈ l ++ [e.name], okComp c := by
      intro c hc
      rcases List.mem_append.mp hc with hc | hc
      · exact hl c hc
      · rw [List.mem_singleton.mp hc]; exact hname.1
    rw [deleteEntries, hfull] at hok ⊢
    dsimp only at hok ⊢
    have hstep := backup_removeAll_step t s (l ++ [e.name]) hapart hl' hwn
    have hr : (removeAll (backupFile t s (pathOf t.DBBasePath ++ (l ++ [e.name]))).1
        (pathOf t.DBBasePath ++ (l ++ [e.name]))).2 = none :=
      hok.second
    have hok' : AllRemovesOk (deleteEntries t (pathOf t.DBBasePath ++ l)
        (removeAll (backupFile t s (pathOf t.DBBasePath ++ (l ++ [e.name]))).1
          (pathOf t.DBBasePath ++ (l ++ [e.name]))).1 rest).trace :=
      hok.tail2
    obtain ⟨hev, hst⟩ := ih _ hrest (hstep.wellNamed hwn) hok'
    refine ⟨hstep.trans hev, ?_⟩
    intro x hx
    rcases List.mem_cons.mp hx with hx | hx
    · rw [hx, List.append_assoc]
      exact hev.stat_none _ (List.prefix_append _ _) (removeAll_ok_stat _ _ hr)
    · exact hst x hx

theorem Settled.evolves {base : Path} {s s' : FS} {target : TargetFile}
    (h : Settled base s target) (hev : Evolves base s s')
    (hq : base <+: joinPath base target.Path) : Settled base s' target := by
  unfold Settled at h ⊢
  by_cases hk : (target.IsDirectory && target.DeleteAll) = true
  · rw [if_pos hk] at h ⊢
    intro d hs hd hr
    rcases hev.stat_or _ hq with h1 | h1
    · rw [h1] at hs; cases hs
    · rw [h1] at hs
      have h0 := h d hs hd hr
      rw [List.eq_nil_iff_forall_not_mem]
      intro c hc
      have := hev.children _ hq hc
      rw [h0] at this
      exact List.not_mem_nil c this
  · rw [if_neg hk] at h ⊢
    exact hev.stat_none _ hq h

theorem processTarget_settles (t : FM24Tool) (s : FS) (target : TargetFile)
    (hapart : Apart (pathOf t.DBBasePath) (pathOf t.BackupDir))
    (hT : ".." ∉ splitComps target.Path)
    (hwn : WellNamed (treeUnder (pathOf t.DBBasePath) s))
    (hok : AllRemovesOk (processTarget t s target).trace) :
    Evolves (pathOf t.DBBasePath) s (processTarget t s target).fs ∧
    Settled (pathOf t.DBBasePath) (processTarget t s target).fs target := by
  obtain ⟨l, hq, hl⟩ := joinPath_ext (pathOf t.DBBasePath) target.Path hT
  unfold Settled
  unfold processTarget at hok ⊢
  rw [hq] at hok ⊢
  dsimp only at hok ⊢
  by_cases hk : (target.IsDirectory && target.DeleteAll) = true
  · rw [if_pos hk] at hok ⊢
    rw [if_pos hk]
    cases hs : stat s (pathOf t.DBBasePath ++ l) with
    | none =>
      refine ⟨Evolves.refl _ _, ?_⟩
      intro d hd
      rw [hs] at hd
      cases hd
    | some info =>
      rw [hs] at hok
      dsimp only at hok ⊢
      by_cases hi : info.isDir = true
      · rw [if_pos hi] at hok ⊢
        unfold deleteDirectoryContents at hok ⊢
        cases hrd : readDir s (pathOf t.DBBasePath ++ l) with
        | error err =>
          refine ⟨Evolves.refl _ _, ?_⟩
          intro d hd hdd hdr
          exfalso
          have := (readDir_ok_iff s _ _).mpr ⟨d, hd, hdd, hdr, rfl⟩
          rw [hrd] at this
          cases this
        | ok entries =>
          rw [hrd] at hok
          dsimp only at hok ⊢
          have hnames := readDir_names_plain (pathOf t.DBBasePath)
            (List.prefix_append _ l) hwn hrd
          obtain ⟨hev, hst⟩ := deleteEntries_settles t l hapart hl entries s hnames hwn hok
          refine ⟨hev, ?_⟩
          intro d _ _ _
          rw [List.eq_nil_iff_forall_not_mem]
          intro c hc
          have hc0 := hev.children _ (List.prefix_append _ l) hc
          obtain ⟨_, _, _, _, hent⟩ := (readDir_ok_iff s _ _).mp hrd
          rw [← hent] at hc0
          obtain ⟨x, hx, hcx⟩ := List.mem_filterMap.mp hc
          have hne := stat_ne_none_of_mem hx
          rw [(childOf_some hcx).1] at hne
          exact hne (hst c hc0)
      · rw [if_neg hi] at hok ⊢
        refine ⟨Evolves.refl _ _, ?_⟩
        intro d hd hdd _
        rw [hs] at hd
        cases hd
        exact absurd hdd hi
  · rw [if_neg hk] at hok ⊢
    rw [if_neg hk]
    cases hs : stat s (pathOf t.DBBasePath ++ l) with
    | none => exact ⟨Evolves.refl _ _, hs⟩
    | some info =>
      rw [hs] at hok
      dsimp only at hok ⊢
      have hr := hok.second
      exact ⟨backup_removeAll_step t s l hapart hl hwn, removeAll_ok_stat _ _ hr⟩

theorem joinPath_under (base : Path) (p : String) (h : ".." ∉ splitComps p) :
    base <+: joinPath base p := by
  obtain ⟨l, hl, _⟩ := joinPath_ext base p h
  rw [hl]
  exact List.prefix_append _ _

theorem processTargets_settles (t : FM24Tool)
    (hapart : Apart (pathOf t.DBBasePath) (pathOf t.BackupDir))
    (l : List TargetFile) (r : Run) (hl : NoParentElement l)
    (hwn : WellNamed (treeUnder (pathOf t.DBBasePath) r.fs))
    (hok : AllRemovesOk (processTargets t r l).trace) :
    Evolves (pathOf t.DBBasePath) r.fs (processTargets t r l).fs ∧
    ∀ target ∈ l, Settled (pathOf t.DBBasePath) (processTargets t r l).fs target := by
  induction l generalizing r with
  | nil => exact ⟨Evolves.refl _ _, fun x hx => absurd hx (List.not_mem_nil x)⟩
  | cons target rest ih =>
    have hT := hl target (List.mem_cons_self _ _)
    have hrest : NoParentElement rest := fun x hx => hl x (List.mem_cons_of_mem _ hx)
    rw [processTargets] at hok ⊢
    obtain ⟨tr, htr⟩ := processTargets_trace t ⟨(processTarget t r.fs target).fs,
      r.trace ++ (processTarget t r.fs target).trace, r.totalFiles + 1,
      r.deletedCount + (processTarget t r.fs target).deleted⟩ rest
    have hok1 : AllRemovesOk (processTarget t r.fs target).trace := by
      rw [htr] at hok
      exact hok.left.right
    obtain ⟨hev1, hset1⟩ := processTarget_settles t r.fs target hapart hT hwn hok1
    obtain ⟨hev2, hset2⟩ := ih ⟨(processTarget t r.fs target).fs,
      r.trace ++ (processTarget t r.fs target).trace, r.totalFiles + 1,
      r.deletedCount + (processTarget t r.fs target).deleted⟩ hrest (hev1.wellNamed hwn) hok
    refine ⟨hev1.trans hev2, ?_⟩
    intro x hx
    rcases List.mem_cons.mp hx with hx | hx
    · rw [hx]
      exact hset1.evolves hev2 (joinPath_under _ _ hT)
    · exact hset2 x hx

theorem processJapan_settles (t : FM24Tool) (l : Path)
    (hapart : Apart (pathOf t.DBBasePath) (pathOf t.BackupDir)) (hl : ∀ c ∈ l, okComp c)
    (files : List Path) (r : Run)
    (hfiles : ∀ jp ∈ files, ∃ n, plainName n ∧ jp = pathOf t.DBBasePath ++ l ++ [n])
    (hwn : WellNamed (treeUnder (pathOf t.DBBasePath) r.fs))
    (hok : AllRemovesOk (processJapan t r files).trace) :
    Evolves (pathOf t.DBBasePath) r.fs (processJapan t r files).fs ∧
    ∀ jp ∈ files, stat (processJapan t r files).fs jp = none := by
  induction files generalizing r with
  | nil => exact ⟨Evolves.refl _ _, fun x hx => absurd hx (List.not_mem_nil x)⟩
  | cons jp rest ih =>
    obtain ⟨n, hn, hjp⟩ := hfiles jp (List.mem_cons_self _ _)
    have hjp' : jp = pathOf t.DBBasePath ++ (l ++ [n]) := by rw [hjp, List.append_assoc]
    have hl' : ∀ c ∈ l ++ [n], okComp c := by
      intro c hc
      rcases List.mem_append.mp hc with hc | hc
      · exact hl c hc
      · rw [List.mem_singleton.mp hc]; exact hn.1
    have hrest : ∀ x ∈ rest, ∃ n, plainName n ∧ x = pathOf t.DBBasePath ++ l ++ [n] :=
      fun x hx => hfiles x (List.mem_cons_of_mem _ hx)
    rw [processJapan] at hok ⊢
    obtain ⟨tr, htr⟩ := processJapan_trace t (processJapanFile t r jp) rest
    rw [processJapanFile_trace] at htr
    have hr : (remove (backupFile t r.fs jp).1 jp).2 = none := by
      rw [htr] at hok
      exact hok.left.right.second
    have hstep : Evolves (pathOf t.DBBasePath) r.fs (processJapanFile t r jp).fs := by
      rw [processJapanFile_fs, hjp']
      exact backup_remove_step t r.fs (l ++ [n]) hapart hl' hwn
    obtain ⟨hev, hst⟩ := ih (processJapanFile t r jp) hrest (hstep.wellNamed hwn) hok
    refine ⟨hstep.trans hev, ?_⟩
    intro x hx
    rcases List.mem_cons.mp hx with hx | hx
    · rw [hx]
      refine hev.stat_none jp ?_ ?_
      · rw [hjp']
        exact List.prefix_append _ _
      · rw [processJapanFile_fs]
        exact remove_ok_stat _ _ hr
    · exact hst x hx

/-! ### A run on settled targets does nothing -/

theorem processTarget_idle (t : FM24Tool) (s : FS) (target : TargetFile)
    (h : Settled (pathOf t.DBBasePath) s target) : processTarget t s target = ⟨s, [], 0⟩ := by
  unfold Settled at h
  unfold processTarget
  dsimp only
  by_cases hk : (target.IsDirectory && target.DeleteAll) = true
  · rw [if_pos hk] at h
    rw [if_pos hk]
    cases hs : stat s (joinPath (pathOf t.DBBasePath) target.Path) with
    | none => rfl
    | some info =>
      dsimp only
      by_cases hi : info.isDir = true
      · rw [if_pos hi]
        unfold deleteDirectoryContents
        cases hrd : readDir s (joinPath (pathOf t.DBBasePath) target.Path) with
        | error err => rfl
        | ok entries =>
          obtain ⟨d, hd, hdd, hdr, hent⟩ := (readDir_ok_iff s _ _).mp hrd
          rw [h d hd hdd hdr] at hent
          rw [hent]
          rfl
      · rw [if_neg hi]
  · rw [if_neg hk] at h
    rw [if_neg hk, h]

theorem processTargets_idle (t : FM24Tool) (r : Run) (l : List TargetFile)
    (h : ∀ target ∈ l, processTarget t r.fs target = ⟨r.fs, [], 0⟩) :
    processTargets t r l = ⟨r.fs, r.trace, r.totalFiles + l.length, r.deletedCount⟩ := by
  induction l generalizing r with
  | nil => rfl
  | cons target rest ih =>
    rw [processTargets, h target (List.mem_cons_self _ _)]
    rw [ih ⟨r.fs, r.trace ++ [], r.totalFiles + 1, r.deletedCount + 0⟩
      (fun x hx => h x (List.mem_cons_of_mem _ hx))]
    simp only [List.append_nil, List.length_cons, Nat.add_zero, Run.mk.injEq, true_and, and_true]
    omega

theorem collectJapan_mem (q : Path) (entries : List DirEntry) (c : DirEntry)
    (hc : c ∈ entries) (hd : c.isDir = false) (hj : japanName c.name = true) :
    joinPath q c.name ∈ collectJapan q entries := by
  induction entries with
  | nil => cases hc
  | cons e rest ih =>
    unfold collectJapan
    rcases List.mem_cons.mp hc with hce | hce
    · subst hce
      simp [hd, hj]
    · split
      · exact List.mem_cons_of_mem _ (ih hce)
      · exact ih hce

theorem collectJapan_eq_nil (q : Path) (entries : List DirEntry)
    (h : ∀ c ∈ entries, c.isDir = false → japanName c.name = true → False) :
    collectJapan q entries = [] := by
  induction entries with
  | nil => rfl
  | cons e rest ih =>
    unfold collectJapan
    have hr := ih (fun c hc => h c (List.mem_cons_of_mem _ hc))
    by_cases hc : (!e.isDir && japanName e.name) = true
    · exfalso
      simp only [Bool.and_eq_true, Bool.not_eq_true'] at hc
      exact h e (List.mem_cons_self _ _) hc.1 hc.2
    · rw [if_neg hc, hr]

theorem collectJapan_names (q : Path) (entries : List DirEntry)
    (hnames : ∀ c ∈ entries, plainName c.name) :
    ∀ jp ∈ collectJapan q entries, ∃ n, plainName n ∧ jp = q ++ [n] := by
  induction entries with
  | nil => intro jp hjp; cases hjp
  | cons e rest ih =>
    have hr := ih (fun c hc => hnames c (List.mem_cons_of_mem _ hc))
    intro jp hjp
    unfold collectJapan at hjp
    split at hjp
    · rcases List.mem_cons.mp hjp with h1 | h1
      · exact ⟨e.name, hnames e (List.mem_cons_self _ _),
          by rw [h1, joinPath_name _ _ (hnames e (List.mem_cons_self _ _))]⟩
      · exact hr jp h1
    · exact hr jp hjp

theorem findJapanFiles_settled (t : FM24Tool) (s : FS)
    (h : ScanSettled (pathOf t.DBBasePath) s) : (findJapanFiles t s).1 = [] := by
  unfold ScanSettled at h
  rw [findJapanFiles_fst]
  cases hrd : readDir s (joinPath (pathOf t.DBBasePath) "dbc/permanent") with
  | error err => rfl
  | ok entries =>
    obtain ⟨d, hd, hdd, hdr, hent⟩ := (readDir_ok_iff s _ _).mp hrd
    dsimp only
    rw [hent]
    exact h d hd hdd hdr

theorem findJapanFiles_of_readDir (t : FM24Tool) (s : FS) (entries : List DirEntry)
    (h : readDir s (joinPath (pathOf t.DBBasePath) "dbc/permanent") = .ok entries) :
    (findJapanFiles t s).1 =
      collectJapan (joinPath (pathOf t.DBBasePath) "dbc/permanent") entries := by
  rw [findJapanFiles_fst, h]

theorem findJapanFiles_names (t : FM24Tool) (s : FS)
    (hwn : WellNamed (treeUnder (pathOf t.DBBasePath) s)) :
    ∀ jp ∈ (findJapanFiles t s).1,
      ∃ n, plainName n ∧ jp = joinPath (pathOf t.DBBasePath) "dbc/permanent" ++ [n] := by
  cases hrd : readDir s (joinPath (pathOf t.DBBasePath) "dbc/permanent") with
  | error err =>
    have : (findJapanFiles t s).1 = [] := by
      rw [findJapanFiles_fst, hrd]
    rw [this]
    intro jp hjp
    cases hjp
  | ok entries =>
    rw [findJapanFiles_of_readDir t s entries hrd]
    exact collectJapan_names _ entries
      (readDir_names_plain (pathOf t.DBBasePath) (joinPath_under _ _ (by decide)) hwn hrd)

/-- Claim C7, as amended. Let the backup directory and `DBBasePath` lie apart
(neither at or below the other), the manifest paths have no `..` element (as
those of `NewFM24Tool`) and the entries of the filesystem have proper file
names. If in a first run of `executeRealNameProcess` every remove call
succeeds, a second run on the resulting filesystem with the same `DBBasePath`
and manifest returns `deletedCount = 0`, makes no backup or remove call and
leaves the filesystem, so the tree under `DBBasePath`, unchanged. -/
theorem executeRealNameProcess_second_run (t t2 : FM24Tool) (s : FS)
    (hdb : t2.DBBasePath = t.DBBasePath) (hman : t2.TargetFiles = t.TargetFiles)
    (hnames : WellNamed s) (hnopar : NoParentElement t.TargetFiles)
    (hapart : Apart (pathOf t.DBBasePath) (pathOf t.BackupDir))
    (hok : AllRemovesOk (executeRealNameProcess t s).1.trace) :
    executeRealNameProcess t2 (executeRealNameProcess t s).1.fs =
      (⟨(executeRealNameProcess t s).1.fs, [], t.TargetFiles.length, 0⟩, none) := by
  have hrun : (executeRealNameProcess t s).1 =
      processJapan t (processTargets t ⟨s, [], 0, 0⟩ t.TargetFiles)
        (findJapanFiles t (processTargets t ⟨s, [], 0, 0⟩ t.TargetFiles).fs).1 := rfl
  rw [hrun] at hok ⊢
  generalize hr1 : processTargets t ⟨s, [], 0, 0⟩ t.TargetFiles = r1 at hok ⊢
  have hwn : WellNamed (treeUnder (pathOf t.DBBasePath) s) := hnames.under _
  obtain ⟨tr, htr⟩ := processJapan_trace t r1 (findJapanFiles t r1.fs).1
  have hok1 : AllRemovesOk r1.trace := by
    rw [htr] at hok
    exact hok.left
  have h1 := processTargets_settles t hapart t.TargetFiles ⟨s, [], 0, 0⟩ hnopar hwn
    (by rw [hr1]; exact hok1)
  rw [hr1] at h1
  obtain ⟨hev1, hset1⟩ := h1
  have hwn1 := hev1.wellNamed hwn
  have hdotdot : ".." ∉ splitComps "dbc/permanent" := by decide
  obtain ⟨l0, hq, hl0⟩ := joinPath_ext (pathOf t.DBBasePath) "dbc/permanent" hdotdot
  have hfiles := findJapanFiles_names t r1.fs hwn1
  rw [hq] at hfiles
  obtain ⟨hev2, hst2⟩ := processJapan_settles t l0 hapart hl0 _ r1 hfiles hwn1 hok
  generalize hfin : processJapan t r1 (findJapanFiles t r1.fs).1 = final at hev2 hst2 ⊢
  have hset2 : ∀ target ∈ t.TargetFiles, Settled (pathOf t.DBBasePath) final.fs target :=
    fun target ht => (hset1 target ht).evolves hev2 (joinPath_under _ _ (hnopar target ht))
  have hqu : pathOf t.DBBasePath <+: joinPath (pathOf t.DBBasePath) "dbc/permanent" :=
    joinPath_under _ _ hdotdot
  have hscan : ScanSettled (pathOf t.DBBasePath) final.fs := by
    intro d hd hdd hdr
    apply collectJapan_eq_nil
    intro c hc hcd hcj
    have hc1 := hev2.children _ hqu hc
    have hs1 : stat r1.fs (joinPath (pathOf t.DBBasePath) "dbc/permanent") = some d := by
      rcases hev2.stat_or _ hqu with h0 | h0
      · rw [h0] at hd; cases hd
      · rw [← h0]; exact hd
    have hrd1 := (readDir_ok_iff r1.fs _ _).mpr ⟨d, hs1, hdd, hdr, rfl⟩
    have hmem : joinPath (joinPath (pathOf t.DBBasePath) "dbc/permanent") c.name ∈
        (findJapanFiles t r1.fs).1 := by
      rw [findJapanFiles_of_readDir t r1.fs _ hrd1]
      exact collectJapan_mem _ _ c hc1 hcd hcj
    have hnone := hst2 _ hmem
    obtain ⟨x, hx, hcx⟩ := List.mem_filterMap.mp hc
    have hplain : plainName c.name := readDir_names_plain (pathOf t.DBBasePath) hqu hwn1 hrd1 c hc1
    rw [joinPath_name _ _ hplain, ← (childOf_some hcx).1] at hnone
    exact stat_ne_none_of_mem hx hnone
  have hidle : ∀ target ∈ t2.TargetFiles,
      processTarget t2 final.fs target = ⟨final.fs, [], 0⟩ := by
    intro target ht
    apply processTarget_idle
    rw [hdb]
    exact hset2 target (hman ▸ ht)
  have hscan2 : (findJapanFiles t2 final.fs).1 = [] := by
    apply findJapanFiles_settled
    rw [hdb]
    exact hscan
  unfold executeRealNameProcess
  rw [processTargets_idle t2 ⟨final.fs, [], 0, 0⟩ t2.TargetFiles hidle]
  simp only [hscan2, processJapan, hman, Nat.zero_add]

/-- Claim C7 at a tree with a child directory of `lnc/all`, a manifest file and
a pattern file: the first run deletes three targets, the second none. -/
theorem executeRealNameProcess_second_run_witness :
    laterTool.DBBasePath = demoTool.DBBasePath ∧
    laterTool.TargetFiles = demoTool.TargetFiles ∧
    WellNamed fullFS ∧ NoParentElement demoTool.TargetFiles ∧
    Apart (pathOf demoTool.DBBasePath) (pathOf demoTool.BackupDir) ∧
    AllRemovesOk (executeRealNameProcess demoTool fullFS).1.trace ∧
    (executeRealNameProcess demoTool fullFS).1.deletedCount = 3 ∧
    executeRealNameProcess laterTool (executeRealNameProcess demoTool fullFS).1.fs =
      (⟨(executeRealNameProcess demoTool fullFS).1.fs, [], demoTool.TargetFiles.length, 0⟩,
        none) :=
  have h1 : WellNamed fullFS := by
    unfold WellNamed plainName okComp
    decide
  have h2 : NoParentElement demoTool.TargetFiles := by
    unfold NoParentElement
    decide
  have h3 : Apart (pathOf demoTool.DBBasePath) (pathOf demoTool.BackupDir) := by
    unfold Apart
    decide
  have h4 : AllRemovesOk (executeRealNameProcess demoTool fullFS).1.trace := by
    unfold AllRemovesOk
    decide
  ⟨rfl, rfl, h1, h2, h3, h4, rfl,
    executeRealNameProcess_second_run demoTool laterTool fullFS rfl rfl h1 h2 h3 h4⟩

/-- Claim C7 as stated fails when the backup directory lies inside a target
directory: every remove of the first run succeeds, the backup of `x.dat`
creates `lnc/all/FM24_Backup` again after it was removed, and the second run
removes it, so that its `deletedCount` is 1 and the tree under `DBBasePath`
changes. -/
theorem executeRealNameProcess_nested_backup_counterexample :
    (executeRealNameProcess nestedTool nestedFS).1.trace =
      [.backup ["db", "2400", "lnc", "all", "FM24_Backup"] false,
       .remove ["db", "2400", "lnc", "all", "FM24_Backup"] true,
       .backup ["db", "2400", "lnc", "all", "x.dat"] true,
       .remove ["db", "2400", "lnc", "all", "x.dat"] true] ∧
    AllRemovesOk (executeRealNameProcess nestedTool nestedFS).1.trace ∧
    stat (executeRealNameProcess nestedTool nestedFS).1.fs
      ["db", "2400", "lnc", "all", "FM24_Backup"] ≠ none ∧
    (executeRealNameProcess nestedTool
      (executeRealNameProcess nestedTool nestedFS).1.fs).1.deletedCount = 1 ∧
    stat (executeRealNameProcess nestedTool
      (executeRealNameProcess nestedTool nestedFS).1.fs).1.fs
      ["db", "2400", "lnc", "all", "FM24_Backup"] = none :=
  ⟨rfl, by unfold AllRemovesOk; decide, by decide, rfl, rfl⟩

/-! ## The depth of a backup -/

theorem below_treeUnder (base : Path) (s : FS) (p : Path) (hp : base <+: p) :
    below (treeUnder base s) p = below s p := by
  unfold below treeUnder
  rw [List.countP_filter]
  apply List.countP_congr
  intro e _
  simp only [Bool.and_eq_true, decide_eq_true_eq]
  constructor
  · intro h; exact h.1
  · intro h
    refine ⟨h, ?_⟩
    rw [List.isPrefixOf_iff_prefix] at h ⊢
    exact hp.trans h.1

theorem below_congr (base : Path) {s s' : FS} (h : treeUnder base s' = treeUnder base s)
    (p : Path) (hp : base <+: p) : below s' p = below s p := by
  rw [← below_treeUnder base s' p hp, ← below_treeUnder base s p hp, h]

theorem countP_lt_of_witness {α : Type} (p q : α → Bool) (l : List α)
    (hpq : ∀ x ∈ l, p x = true → q x = true) (x : α) (hx : x ∈ l) (hqx : q x = true)
    (hpx : p x = false) : l.countP p < l.countP q := by
  induction l with
  | nil => cases hx
  | cons a rest ih =>
    have hle : rest.countP p ≤ rest.countP q :=
      List.countP_mono_left (fun y hy => hpq y (List.mem_cons_of_mem _ hy))
    rcases List.mem_cons.mp hx with hxa | hxa
    · subst hxa
      rw [List.countP_cons_of_pos _ _ hqx, List.countP_cons_of_neg _ _ (by simp [hpx])]
      omega
    · have ih' := ih (fun y hy => hpq y (List.mem_cons_of_mem _ hy)) hxa
      by_cases hpa : p a = true
      · rw [List.countP_cons_of_pos _ _ hpa,
          List.countP_cons_of_pos _ _ (hpq a (List.mem_cons_self _ _) hpa)]
        omega
      · rw [List.countP_cons_of_neg _ _ hpa]
        by_cases hqa : q a = true
        · rw [List.countP_cons_of_pos _ _ hqa]; omega
        · rw [List.countP_cons_of_neg _ _ hqa]; exact ih'

theorem below_child_lt (s : FS) (p : Path) (n : String) (e : Entry) (he : e ∈ s)
    (hp : e.path = p ++ [n]) : below s (p ++ [n]) < below s p := by
  unfold below
  apply countP_lt_of_witness _ _ s _ e he
  · simp only [Bool.and_eq_true, decide_eq_true_eq, List.isPrefixOf_iff_prefix, hp,
      List.length_append, List.length_singleton]
    exact ⟨List.prefix_append _ _, by omega⟩
  · simp [hp]
  · intro x _ hx
    simp only [Bool.and_eq_true, decide_eq_true_eq, List.isPrefixOf_iff_prefix,
      List.length_append, List.length_singleton] at hx ⊢
    exact ⟨(List.prefix_append p [n]).trans hx.1, by omega⟩

theorem below_le_length (s : FS) (p : Path) : below s p ≤ s.length :=
  List.countP_le_length _

theorem lookupError_ne (s : FS) (q : Path) : lookupError s q ≠ .tooDeep := by
  unfold lookupError
  split <;> intro e <;> cases e

theorem readDir_error_ne (s : FS) (q : Path) (err : Err) (h : readDir s q = .error err) :
    err ≠ .tooDeep := by
  unfold readDir at h
  split at h
  · cases h; exact lookupError_ne _ _
  · split at h
    · cases h; intro e; cases e
    · split at h
      · cases h; intro e; cases e
      · cases h

theorem readFile_error_ne (s : FS) (q : Path) (err : Err) (h : readFile s q = .error err) :
    err ≠ .tooDeep := by
  unfold readFile at h
  split at h
  · cases h; exact lookupError_ne _ _
  · split at h
    · cases h; intro e; cases e
    · split at h
      · cases h; intro e; cases e
      · cases h

theorem mkdirAllRev_error_ne (mode : Nat) (s : FS) (rp : List String) :
    (mkdirAllRev mode s rp).2 ≠ some .tooDeep := by
  induction rp with
  | nil =>
    unfold mkdirAllRev
    split
    · dsimp only
      split <;> intro e <;> cases e
    · intro e; cases e
  | cons n up ih =>
    unfold mkdirAllRev
    split
    · dsimp only
      split <;> intro e <;> cases e
    · split
      · intro e; cases e
      · rename_i s1 err heq
        rw [heq] at ih
        exact ih

theorem writeFile_error_ne (s : FS) (p : Path) (data : String) (mode : Nat) :
    (writeFile s p data mode).2 ≠ some .tooDeep := by
  unfold writeFile
  split
  · intro e; cases e
  · split
    · intro e; exact lookupError_ne _ _ (Option.some.inj e)
    · split
      · intro e; cases e
      · split
        · split <;> intro e <;> cases e
        · intro e; cases e

theorem backupEntries_depth (base bdir : Path) (hapart : Apart base bdir)
    (recur : FS → Path → Path → FS × Option Err) (k : Nat)
    (hframe : ∀ s src dst, base <+: src → bdir <+: dst → WellNamed (treeUnder base s) →
      treeUnder base (recur s src dst).1 = treeUnder base s)
    (hrec : ∀ s src dst, base <+: src → bdir <+: dst → WellNamed (treeUnder base s) →
      below s src < k → (recur s src dst).2 ≠ some .tooDeep)
    (srcDir dstDir : Path) (hsrc : base <+: srcDir) (hdst : bdir <+: dstDir) (s0 : FS)
    (es : List DirEntry) (s : FS) (hes : ∀ e ∈ es, plainName e.name)
    (hchild : ∀ c ∈ es, below s0 (srcDir ++ [c.name]) < k)
    (hs : treeUnder base s = treeUnder base s0)
    (hwn : WellNamed (treeUnder base s0)) :
    (backupEntries recur srcDir dstDir s es).2 ≠ some .tooDeep := by
  induction es generalizing s with
  | nil => intro e; cases e
  | cons e rest ih =>
    have hname := hes e (List.mem_cons_self _ _)
    have hrest : ∀ x ∈ rest, plainName x.name := fun x hx => hes x (List.mem_cons_of_mem _ hx)
    have hchild' : ∀ c ∈ rest, below s0 (srcDir ++ [c.name]) < k :=
      fun c hc => hchild c (List.mem_cons_of_mem _ hc)
    have hsp : joinPath srcDir e.name = srcDir ++ [e.name] := joinPath_name _ _ hname
    have hdp : joinPath dstDir e.name = dstDir ++ [e.name] := joinPath_name _ _ hname
    have hsu : base <+: srcDir ++ [e.name] := hsrc.trans (List.prefix_append _ _)
    have hdu : bdir <+: dstDir ++ [e.name] := hdst.trans (List.prefix_append _ _)
    have hout : ¬ base <+: dstDir ++ [e.name] := by
      obtain ⟨l, hl⟩ := hdu
      rw [← hl]
      exact not_under_of_apart hapart l
    rw [backupEntries, hsp, hdp]
    dsimp only
    split
    · have h1 : treeUnder base (mkdirAll s (dstDir ++ [e.name]) 0o755).1 = treeUnder base s0 := by
        rw [mkdirAll_frame base s (dstDir ++ [e.name]) 0o755 hout, hs]
      have hwn1 : WellNamed (treeUnder base (mkdirAll s (dstDir ++ [e.name]) 0o755).1) := by
        rw [h1]; exact hwn
      have hb : below (mkdirAll s (dstDir ++ [e.name]) 0o755).1 (srcDir ++ [e.name]) < k := by
        rw [below_congr base h1 _ hsu]
        exact hchild e (List.mem_cons_self _ _)
      have h2 := hframe _ _ _ hsu hdu hwn1
      have h3 := hrec _ _ _ hsu hdu hwn1 hb
      split
      · rename_i s2 err heq
        rw [heq] at h3
        exact h3
      · rename_i s2 heq
        rw [heq] at h2
        exact ih s2 hrest hchild' (by rw [h2, h1])
    · split
      · exact ih s hrest hchild' hs
      · exact ih _ hrest hchild'
          (by rw [writeFile_frame base s (dstDir ++ [e.name]) _ e.mode hout, hs])

theorem backupDirectory_depth (base bdir : Path) (hapart : Apart base bdir) (depth : Nat) :
    ∀ s src dst, base <+: src → bdir <+: dst → WellNamed (treeUnder base s) →
      below s src < depth → (backupDirectory depth s src dst).2 ≠ some .tooDeep := by
  induction depth with
  | zero => intro s src dst _ _ _ h; exact absurd h (Nat.not_lt_zero _)
  | succ d ih =>
    intro s src dst hsrc hdst hwn hb
    rw [backupDirectory]
    split
    · rename_i err hread
      intro e
      exact readDir_error_ne s src err hread (Option.some.inj e)
    · rename_i entries hread
      apply backupEntries_depth base bdir hapart _ d
        (backupDirectory_frame base bdir hapart d) ih src dst hsrc hdst s entries s
        (readDir_names_plain base hsrc hwn hread) _ rfl hwn
      intro c hc
      obtain ⟨e, he, hce⟩ := readDir_ok_mem hread hc
      have := below_child_lt s src c.name e he (childOf_some hce).1
      omega

/-- The depth that `backupFile` allows is never reached when the backup
directory and `DBBasePath` lie apart: the error `tooDeep` is not returned. -/
theorem backupFile_depth (t : FM24Tool) (s : FS) (l : Path)
    (hapart : Apart (pathOf t.DBBasePath) (pathOf t.BackupDir))
    (hl : ∀ c ∈ l, okComp c) (hwn : WellNamed (treeUnder (pathOf t.DBBasePath) s)) :
    (backupFile t s (pathOf t.DBBasePath ++ l)).2 ≠ some .tooDeep := by
  have hout : ¬ pathOf t.DBBasePath <+: pathOf t.BackupDir ++ l := not_under_of_apart hapart l
  have hmk := mkdirAll_frame (pathOf t.DBBasePath) s (pathOf t.BackupDir ++ l).dropLast 0o755
    (not_under_dropLast hout)
  have hmke := mkdirAllRev_error_ne 0o755 s (pathOf t.BackupDir ++ l).dropLast.reverse
  unfold backupFile
  simp only [backup_dst _ _ _ hl, filepathDir]
  unfold mkdirAll at hmk ⊢
  split
  · rename_i s1 err heq
    rw [heq] at hmke
    exact hmke
  · rename_i s1 heq
    rw [heq] at hmk
    split
    · intro e; exact lookupError_ne _ _ (Option.some.inj e)
    · split
      · exact backupDirectory_depth _ _ hapart _ s1 _ _ (List.prefix_append _ _)
          (List.prefix_append _ _) (by rw [hmk]; exact hwn)
          (Nat.lt_succ_of_le (below_le_length _ _))
      · split
        · rename_i err hread
          intro e
          exact readFile_error_ne _ _ err hread (Option.some.inj e)
        · exact writeFile_error_ne _ _ _ _

/-- A backup that fails does not stop the remove: the file that cannot be read
is not copied and is removed, and counted as deleted. -/
theorem remove_after_failed_backup :
    (executeRealNameProcess demoTool unreadableFS).1.trace =
      [.backup ["db", "2400", "dbc", "permanent", "license.dbc"] false,
       .remove ["db", "2400", "dbc", "permanent", "license.dbc"] true] ∧
    (executeRealNameProcess demoTool unreadableFS).1.deletedCount = 1 ∧
    filesUnder (executeRealNameProcess demoTool unreadableFS).1.fs [] = [] :=
  ⟨rfl, rfl, rfl⟩

/-! ## Status check -/

theorem entriesOrNone_ne_nil_iff (s : FS) (q : Path) :
    entriesOrNone s q ≠ [] ↔
      ∃ d, stat s q = some d ∧ d.isDir = true ∧ d.readable = true ∧
        s.filterMap (childOf q) ≠ [] := by
  unfold entriesOrNone
  cases hrd : readDir s q with
  | error err =>
    constructor
    · intro h; exact absurd rfl h
    · rintro ⟨d, hd, hdd, hdr, _⟩
      have := (readDir_ok_iff s q _).mpr ⟨d, hd, hdd, hdr, rfl⟩
      rw [hrd] at this
      cases this
  | ok entries =>
    obtain ⟨d, hd, hdd, hdr, hent⟩ := (readDir_ok_iff s q entries).mp hrd
    constructor
    · intro h
      exact ⟨d, hd, hdd, hdr, by rw [← hent]; exact h⟩
    · rintro ⟨_, _, _, _, h⟩
      rw [hent]; exact h

/-- When a directory entry is counted as existing. -/
theorem checkTarget_directory (t : FM24Tool) (s : FS) (target : TargetFile)
    (hdir : target.IsDirectory = true) :
    checkTarget t s target = true ↔
      ∃ d, stat s (joinPath (pathOf t.DBBasePath) target.Path) = some d ∧ d.isDir = true ∧
        d.readable = true ∧
        s.filterMap (childOf (joinPath (pathOf t.DBBasePath) target.Path)) ≠ [] := by
  rw [← entriesOrNone_ne_nil_iff]
  unfold checkTarget
  simp only [hdir, if_true]
  cases hs : stat s (joinPath (pathOf t.DBBasePath) target.Path) with
  | none =>
    simp only [Bool.false_eq_true, false_iff]
    intro h
    unfold entriesOrNone readDir at h
    rw [hs] at h
    exact h rfl
  | some info =>
    dsimp only
    by_cases hi : info.isDir = true
    · rw [if_pos hi]
      cases hl : entriesOrNone s (joinPath (pathOf t.DBBasePath) target.Path) with
      | nil => simp
      | cons a rest => simp
    · rw [if_neg hi]
      simp only [Bool.false_eq_true, false_iff]
      intro h
      unfold entriesOrNone readDir at h
      rw [hs] at h
      have hi' : info.isDir = false := by simpa using hi
      simp [hi'] at h

/-- When a single-file entry is counted as existing. -/
theorem checkTarget_file (t : FM24Tool) (s : FS) (target : TargetFile)
    (hfile : target.IsDirectory = false) :
    checkTarget t s target = true ↔
      stat s (joinPath (pathOf t.DBBasePath) target.Path) ≠ none := by
  unfold checkTarget
  simp only [hfile, Bool.false_eq_true, if_false]
  cases hs : stat s (joinPath (pathOf t.DBBasePath) target.Path) with
  | none => simp
  | some info => simp

/-- The manifest loop of `CheckStatus` counts every entry once. -/
theorem checkTargets_counts (t : FM24Tool) (s : FS) (c : Counts) (l : List TargetFile) :
    (checkTargets t s c l).existCount = c.existCount + l.countP (checkTarget t s) ∧
    (checkTargets t s c l).deletedCount =
      c.deletedCount + l.countP (fun x => !checkTarget t s x) := by
  induction l generalizing c with
  | nil => exact ⟨rfl, rfl⟩
  | cons target rest ih =>
    rw [checkTargets]
    by_cases h : checkTarget t s target = true
    · rw [if_pos h]
      obtain ⟨h1, h2⟩ := ih ⟨c.existCount + 1, c.deletedCount⟩
      rw [h1, h2, List.countP_cons_of_pos _ _ h, List.countP_cons_of_neg _ _ (by simp [h])]
      dsimp only
      exact ⟨by omega, rfl⟩
    · rw [if_neg h]
      obtain ⟨h1, h2⟩ := ih ⟨c.existCount, c.deletedCount + 1⟩
      rw [h1, h2, List.countP_cons_of_neg _ _ h, List.countP_cons_of_pos _ _ (by simp [h])]
      dsimp only
      exact ⟨rfl, by omega⟩

/-- A predicate and its negation split a list. -/
theorem countP_add_countP_not (l : List TargetFile) (p : TargetFile → Bool) :
    l.countP p + l.countP (fun x => !p x) = l.length := by
  induction l with
  | nil => rfl
  | cons a rest ih =>
    by_cases h : p a = true
    · rw [List.countP_cons_of_pos _ _ h, List.countP_cons_of_neg _ _ (by simp [h]),
        List.length_cons]
      omega
    · rw [List.countP_cons_of_neg _ _ h, List.countP_cons_of_pos _ _ (by simp [h]),
        List.length_cons]
      omega

/-- The filesystem after `CheckStatus` is the one before it. -/
theorem CheckStatus_fs (env : Env) (s : FS) (t : FM24Tool) (customPath : String) :
    (CheckStatus env s t customPath).fs = s := by
  unfold CheckStatus
  split
  · rfl
  · dsimp only
    split <;> rfl

/-- Claim C11, as amended. When `DetectInstallation` succeeds, `CheckStatus`
returns no error and leaves the filesystem as it was. A directory entry is
counted as existing exactly when its path exists, is a directory, its listing
can be read and has at least one child; a single-file entry exactly when its
path is present. Each entry is counted once: the entries counted as existing
and `deletedCount` add up to `len(TargetFiles)`, and `existCount` is the former
plus the number of pattern-scan matches. -/
theorem CheckStatus_counts (env : Env) (s : FS) (t t1 : FM24Tool) (customPath : String)
    (hdet : DetectInstallation env s t customPath = (none, t1)) :
    (CheckStatus env s t customPath).err = none ∧
    (CheckStatus env s t customPath).tool = t1 ∧
    (CheckStatus env s t customPath).fs = s ∧
    (∀ target, target.IsDirectory = true →
      (checkTarget t1 s target = true ↔
        ∃ d, stat s (joinPath (pathOf t1.DBBasePath) target.Path) = some d ∧ d.isDir = true ∧
          d.readable = true ∧
          s.filterMap (childOf (joinPath (pathOf t1.DBBasePath) target.Path)) ≠ [])) ∧
    (∀ target, target.IsDirectory = false →
      (checkTarget t1 s target = true ↔
        stat s (joinPath (pathOf t1.DBBasePath) target.Path) ≠ none)) ∧
    (CheckStatus env s t customPath).existCount =
      t1.TargetFiles.countP (checkTarget t1 s) + (findJapanFiles t1 s).1.length ∧
    (CheckStatus env s t customPath).deletedCount =
      t1.TargetFiles.countP (fun x => !checkTarget t1 s x) ∧
    t1.TargetFiles.countP (checkTarget t1 s) + (CheckStatus env s t customPath).deletedCount =
      t1.TargetFiles.length := by
  have hc := checkTargets_counts t1 s ⟨0, 0⟩ t1.TargetFiles
  simp only [Nat.zero_add] at hc
  have hrun : CheckStatus env s t customPath =
      ⟨none, t1, t1.TargetFiles.countP (checkTarget t1 s) + (findJapanFiles t1 s).1.length,
        t1.TargetFiles.countP (fun x => !checkTarget t1 s x), s⟩ := by
    unfold CheckStatus
    rw [hdet]
    dsimp only
    rw [hc.1, hc.2]
    by_cases hj : (findJapanFiles t1 s).1.length > 0
    · rw [if_pos hj]
    · rw [if_neg hj]
      have : (findJapanFiles t1 s).1.length = 0 := by omega
      rw [this, Nat.add_zero]
  rw [hrun]
  exact ⟨rfl, rfl, rfl, fun target h => checkTarget_directory t1 s target h,
    fun target h => checkTarget_file t1 s target h, rfl, rfl, countP_add_countP_not _ _⟩

/-- Claim C11 at a version folder with two existing targets, one of them a
directory with a child, and one pattern file. -/
theorem CheckStatus_counts_witness :
    DetectInstallation macEnv statusFS (NewFM24Tool candidatesConfig) "/db" =
      (none, { NewFM24Tool candidatesConfig with DBBasePath := "/db/2400" }) ∧
    (CheckStatus macEnv statusFS (NewFM24Tool candidatesConfig) "/db").existCount = 3 ∧
    (CheckStatus macEnv statusFS (NewFM24Tool candidatesConfig) "/db").deletedCount = 8 ∧
    (CheckStatus macEnv statusFS (NewFM24Tool candidatesConfig) "/db").fs = statusFS ∧
    List.countP
        (checkTarget { NewFM24Tool candidatesConfig with DBBasePath := "/db/2400" } statusFS)
        (NewFM24Tool candidatesConfig).TargetFiles +
      (CheckStatus macEnv statusFS (NewFM24Tool candidatesConfig) "/db").deletedCount = 10 :=
  ⟨rfl, rfl, rfl, rfl,
    (CheckStatus_counts macEnv statusFS (NewFM24Tool candidatesConfig)
      { NewFM24Tool candidatesConfig with DBBasePath := "/db/2400" } "/db" rfl).2.2.2.2.2.2.2⟩

/-- Claim C11 as stated fails: `lnc/all` exists, is a directory and has the
child `a.lnc`, but its listing cannot be read; `CheckStatus` drops the error of
`os.ReadDir` and counts the entry as deleted. -/
theorem CheckStatus_unreadable_directory_counterexample :
    (∃ d, stat lockedDirFS (joinPath (pathOf "/db/2400") "lnc/all") = some d ∧ d.isDir = true ∧
      lockedDirFS.filterMap (childOf (joinPath (pathOf "/db/2400") "lnc/all")) =
        [⟨"a.lnc", false, 0o644⟩]) ∧
    checkTarget demoTool lockedDirFS ⟨"lnc/all", "lnc/all (全ファイル)", true, true⟩ = false ∧
    (CheckStatus macEnv lockedDirFS (NewFM24Tool candidatesConfig) "/db").err = none ∧
    (CheckStatus macEnv lockedDirFS (NewFM24Tool candidatesConfig) "/db").existCount = 0 ∧
    (CheckStatus macEnv lockedDirFS (NewFM24Tool candidatesConfig) "/db").deletedCount = 10 :=
  ⟨⟨_, rfl, rfl, rfl⟩, rfl, rfl, rfl, rfl⟩

/-! ## Backup directory -/

/-- The backup directory that `createBackupDir` sets. -/
theorem createBackupDir_sets (env : Env) (now : Time) (s : FS) (t : FM24Tool) (home : String)
    (hhome : env.home = some home) :
    (createBackupDir env now s t).2.2.BackupDir =
      filepathJoin [home, "FM24_Backup", formatStamp now] := by
  unfold createBackupDir
  rw [hhome]

/-- The backup directory that `createBackupDir` sets does not depend on the
configuration of the tool. -/
theorem createBackupDir_config (env : Env) (now : Time) (s : FS) (t : FM24Tool)
    (config : Config) :
    (createBackupDir env now s { t with Config := config }).2.2.BackupDir =
      (createBackupDir env now s t).2.2.BackupDir := by
  unfold createBackupDir
  cases env.home <;> rfl

/-- Claim C12 at the failing input: the configuration names the backup
directory `/Volumes/Backups/fm24`, for which the claim gives
`/Volumes/Backups/fm24/20240102_030405`; `createBackupDir` sets `BackupDir` to
`/Users/u/FM24_Backup/20240102_030405`, the same as for the default
configuration. -/
theorem createBackupDir_ignores_config :
    customConfig.Backup.Directory = "/Volumes/Backups/fm24" ∧
    defaultBackupDirectory macEnv customConfig = customConfig ∧
    filepathJoin [customConfig.Backup.Directory, formatStamp stampTime] =
      "/Volumes/Backups/fm24/20240102_030405" ∧
    (createBackupDir macEnv stampTime demoBase (NewFM24Tool customConfig)).2.1 = none ∧
    (createBackupDir macEnv stampTime demoBase (NewFM24Tool customConfig)).2.2.BackupDir =
      "/Users/u/FM24_Backup/20240102_030405" ∧
    (createBackupDir macEnv stampTime demoBase (NewFM24Tool defaultConfig)).2.2.BackupDir =
      "/Users/u/FM24_Backup/20240102_030405" :=
  ⟨rfl, rfl, rfl, rfl, rfl, rfl⟩

/-! ## The counts of a run -/

theorem processTargets_total (t : FM24Tool) (r : Run) (l : List TargetFile) :
    (processTargets t r l).totalFiles = r.totalFiles + l.length := by
  induction l generalizing r with
  | nil => rfl
  | cons target rest ih =>
    rw [processTargets, ih, List.length_cons]
    dsimp only
    omega

/-- The pattern loop adds one to `totalFiles` for every file. -/
theorem processJapan_total (t : FM24Tool) (r : Run) (l : List Path) :
    (processJapan t r l).totalFiles = r.totalFiles + l.length := by
  induction l generalizing r with
  | nil => rfl
  | cons jp rest ih =>
    rw [processJapan, ih, List.length_cons]
    have : (processJapanFile t r jp).totalFiles = r.totalFiles + 1 := rfl
    rw [this]
    omega

/-- The first count of a run: one for every manifest entry and one for every
file that the pattern scan returned. -/
theorem executeRealNameProcess_total (t : FM24Tool) (s : FS) :
    (executeRealNameProcess t s).1.totalFiles =
      t.TargetFiles.length +
        (findJapanFiles t (processTargets t ⟨s, [], 0, 0⟩ t.TargetFiles).fs).1.length := by
  unfold executeRealNameProcess
  dsimp only
  rw [processJapan_total, processTargets_total]
  dsimp only
  omega

/-- Claim C13 at the failing input: `lnc/all` holds eleven files and every
other target is absent. The run returns `totalFiles = 10` and
`deletedCount = 11`, every remove succeeding; nine targets were absent, and
`generateReport` prints the failure count `-1`. -/
theorem generateReport_negative_failures :
    (elevenFS.filterMap
      (childOf (joinPath (pathOf demoTool.DBBasePath) "lnc/all"))).length = 11 ∧
    (executeRealNameProcess demoTool elevenFS).1.totalFiles = 10 ∧
    (executeRealNameProcess demoTool elevenFS).1.deletedCount = 11 ∧
    AllRemovesOk (executeRealNameProcess demoTool elevenFS).1.trace ∧
    (demoTool.TargetFiles.filter (fun target =>
      (stat elevenFS (joinPath (pathOf demoTool.DBBasePath) target.Path)).isNone)).length = 9 ∧
    (generateReport demoTool (executeRealNameProcess demoTool elevenFS).1.totalFiles
      (executeRealNameProcess demoTool elevenFS).1.deletedCount).failed = -1 :=
  ⟨rfl, rfl, rfl, by unfold AllRemovesOk; decide, rfl, rfl⟩

end FM24
